import Mathlib

/-!
plan_ohada: chart-of-accounts viewer (`src/main.js`)

A shallow embedding of the pure core of `main.js` (CSV parsing, tree building,
class lookup, class/text filtering) and theorems about it.

Conventions of the embedding

* A JavaScript string is the list of its UTF-16 code units (`JsString`).  Every
  string operation the program uses (`length`, `substring`, `charAt`, `split`,
  `includes`, `trim`, the `replace` of combining marks, property-key equality)
  works on code units, so the representation is exact.  `js` writes a literal.
* The host built-ins whose tables are not part of the repository are
  parameters of the definitions: `lower` is `String.prototype.toLowerCase`,
  `nfd` is `String.prototype.normalize("NFD")`, `cmp` is
  `String.prototype.localeCompare`.  Concrete Latin-1 instances are given for
  the worked examples.
* An object used as a dictionary (`classMapping`, `nodeMap`) inherits the
  properties of `Object.prototype`; reading an inherited key yields a value
  that is neither `undefined` nor a label / account node.
* Account node objects are mutable and shared by reference while the tree is
  built; they are identified by the index of their record in the sorted array
  and the finished object graph is read back as a value of `AccountNode`.
-/

namespace PlanOhada

/-! ## Strings -/

/-- A JavaScript string: the sequence of its UTF-16 code units. -/
abbrev JsString := List Nat

/-- UTF-16 code units of one Unicode scalar value. -/
def utf16 (c : Char) : List Nat :=
  if c.toNat < 65536 then [c.toNat]
  else [55296 + (c.toNat - 65536) / 1024, 56320 + (c.toNat - 65536) % 1024]

/-- A string literal read as a JavaScript string. -/
def js (s : String) : JsString := s.toList.flatMap utf16

/-- The test `hay.includes(needle)`: `needle` occurs in `hay` as a contiguous block. -/
def includes : JsString → JsString → Bool
  | [], needle => needle.isEmpty
  | c :: hay, needle => needle.isPrefixOf (c :: hay) || includes hay needle

/-- White space and line terminators of ECMAScript, the code units `trim` strips. -/
def isWhiteSpace (c : Nat) : Bool :=
  c = 9 || c = 10 || c = 11 || c = 12 || c = 13 || c = 32 || c = 160 || c = 5760 ||
  (8192 ≤ c && c ≤ 8202) || c = 8232 || c = 8233 || c = 8239 || c = 8287 ||
  c = 12288 || c = 65279

/-- The method `str.trim()`. -/
def trim (s : JsString) : JsString :=
  ((s.dropWhile isWhiteSpace).reverse.dropWhile isWhiteSpace).reverse

/-- The method `str.split(sep)` for a separator of one code unit: never an empty array. -/
def splitOn (sep : Nat) : JsString → List JsString
  | [] => [[]]
  | c :: cs =>
    if c = sep then [] :: splitOn sep cs
    else
      match splitOn sep cs with
      | [] => [[c]]
      | p :: ps => (c :: p) :: ps

/-- Removes one trailing carriage return, the `\r?` of the line separator. -/
def dropTrailingCR (s : JsString) : JsString :=
  if s.getLast? = some 13 then s.dropLast else s

/-- All pieces but the last lose a carriage return that stood before the line feed. -/
def stripCRs : List JsString → List JsString
  | [] => []
  | [p] => [p]
  | p :: q :: ps => dropTrailingCR p :: stripCRs (q :: ps)

/-- The call `text.split(/\r?\n/)`: split at every line feed, a carriage return
right before the line feed belonging to the separator. -/
def splitLines (text : JsString) : List JsString :=
  stripCRs (splitOn 10 text)

/-- The call `str.charAt(0)`: the first code unit as a string, or the empty string. -/
def charAt0 (s : JsString) : JsString := s.take 1

/-- The function `removeAccents(str)` of `main.js`:
`str.normalize("NFD").replace(/[\u0300-\u036f]/g, "")`: the combining marks
U+0300 to U+036F (768 to 879) are deleted from the decomposed string. -/
def removeAccents (nfd : JsString → JsString) (str : JsString) : JsString :=
  (nfd str).filter (fun c => !(768 ≤ c && c ≤ 879))

/-! ### Latin-1 instances of the host built-ins -/

/-- Lower-casing of one Latin-1 code unit (`A`-`Z` and `À`-`Þ` except `×`). -/
def latin1LowerUnit (c : Nat) : Nat :=
  if (65 ≤ c && c ≤ 90) || (192 ≤ c && c ≤ 222 && c != 215) then c + 32 else c

/-- The built-in `toLowerCase` on strings of Latin-1 characters. -/
def latin1Lower (s : JsString) : JsString := s.map latin1LowerUnit

/-- Canonical decomposition of the upper-case accented Latin-1 letters:
base letter and combining mark. -/
def latin1DecompTable : List (Nat × Nat × Nat) :=
  [(192, 65, 768), (193, 65, 769), (194, 65, 770), (195, 65, 771), (196, 65, 776),
   (197, 65, 778), (199, 67, 807), (200, 69, 768), (201, 69, 769), (202, 69, 770),
   (203, 69, 776), (204, 73, 768), (205, 73, 769), (206, 73, 770), (207, 73, 776),
   (209, 78, 771), (210, 79, 768), (211, 79, 769), (212, 79, 770), (213, 79, 771),
   (214, 79, 776), (217, 85, 768), (218, 85, 769), (219, 85, 770), (220, 85, 776),
   (221, 89, 769)]

/-- Canonical decomposition of one Latin-1 code unit. -/
def latin1DecompUnit (c : Nat) : List Nat :=
  if c = 255 then [121, 776]
  else
    match latin1DecompTable.lookup c with
    | some (base, mark) => [base, mark]
    | none =>
      match latin1DecompTable.lookup (c - 32) with
      | some (base, mark) => if 224 ≤ c then [base + 32, mark] else [c]
      | none => [c]

/-- The built-in `normalize("NFD")` on strings of Latin-1 characters. -/
def latin1NFD (s : JsString) : JsString := s.flatMap latin1DecompUnit

/-- Code-unit comparison, the value of `a.localeCompare(b)` on strings of digits:
negative, zero or positive. -/
def codeUnitCompare : JsString → JsString → Int
  | [], [] => 0
  | [], _ :: _ => -1
  | _ :: _, [] => 1
  | a :: as, b :: bs =>
    if a < b then -1 else if b < a then 1 else codeUnitCompare as bs

/-! ## Data model -/

/-- A parsed record `{ code, label }`. -/
structure Account where
  code : JsString
  label : JsString
deriving DecidableEq, Repr

/-- A tree node `{ code, label, children }`. -/
inductive AccountNode where
  | mk (code : JsString) (label : JsString) (children : List AccountNode)
deriving Repr

/-- The field `node.code`. -/
def AccountNode.code : AccountNode → JsString
  | .mk code _ _ => code

/-- The field `node.label`. -/
def AccountNode.label : AccountNode → JsString
  | .mk _ label _ => label

/-- The field `node.children`. -/
def AccountNode.children : AccountNode → List AccountNode
  | .mk _ _ children => children

/-- Exceptions the core can raise. -/
inductive JsError where
  | typeError
deriving DecidableEq, Repr

/-- Values read from a dictionary object. -/
inductive JsValue where
  | undefined
  | str (s : JsString)
  | node (i : Nat)
  | other
deriving DecidableEq, Repr

/-- Truthiness, as tested by `if (v)` and `v || w`. -/
def JsValue.truthy : JsValue → Bool
  | .undefined => false
  | .str s => !s.isEmpty
  | .node _ => true
  | .other => true

/-- Names of the properties every plain object inherits from `Object.prototype`
(the accessor `__proto__` apart). -/
def objectPrototypeKeys : List JsString :=
  [js "constructor", js "hasOwnProperty", js "isPrototypeOf", js "propertyIsEnumerable",
   js "toLocaleString", js "toString", js "valueOf", js "__defineGetter__",
   js "__defineSetter__", js "__lookupGetter__", js "__lookupSetter__"]

/-- The key `__proto__`. -/
def protoKey : JsString := js "__proto__"

/-- Reading `key` from `Object.prototype`: a built-in function for the inherited
names, `undefined` otherwise. -/
def objectPrototypeGet (key : JsString) : JsValue :=
  if key ∈ objectPrototypeKeys then .other else .undefined

/-! ## Class lookup -/

/-- The constant `classMapping`. -/
def classMapping : List (JsString × JsString) :=
  [(js "1", js "Comptes de ressources durables"),
   (js "2", js "Comptes d\x27actif immobilisé"),
   (js "3", js "Comptes de stocks"),
   (js "4", js "Comptes de tiers"),
   (js "5", js "Comptes de trésorerie"),
   (js "6", js "Comptes de charges"),
   (js "7", js "Comptes de produits"),
   (js "8", js "Comptes divers"),
   (js "9", js "Comptes des engagements et CAGE")]

/-- The read `classMapping[key]`: an own property, else what `Object.prototype`
holds under that name (`__proto__` reads the prototype object itself). -/
def classMappingGet (key : JsString) : JsValue :=
  match classMapping.lookup key with
  | some label => .str label
  | none => if key = protoKey then .other else objectPrototypeGet key

/-- The expression `classMapping[key] || "Classe inconnue"` of `updateClassInfo`
and of the class selector handler. -/
def classLabel (key : JsString) : JsValue :=
  if (classMappingGet key).truthy then classMappingGet key else .str (js "Classe inconnue")

/-- The pure part of `updateClassInfo(node)`: the value given to the class
selector and the text given to the class label. -/
def updateClassInfo (node : AccountNode) : JsString × JsValue :=
  let classNumber := charAt0 node.code
  let className := classLabel classNumber
  (classNumber, className)

/-! ## Record parser -/

/-- One turn of the loop of `parseCSV` on the line `line`. -/
def parseLine (accounts : List Account) (line : JsString) : List Account :=
  match splitOn 59 line with
  | p0 :: p1 :: _ => accounts ++ [{ code := trim p0, label := trim p1 }]
  | _ => accounts

/-- The function `parseCSV(text)`.  The only operation that can raise is
`lines[0].toLowerCase()` on an empty `lines`. -/
def parseCSV (lower : JsString → JsString) (text : JsString) : Except JsError (List Account) :=
  let lines := splitLines (trim text)
  match lines with
  | [] => .error .typeError
  | first :: _ =>
    let start :=
      if includes (lower first) (js "numéro") || includes (lower first) (js "intitulé")
      then 1 else 0
    .ok ((lines.drop start).foldl parseLine [])

/-- The record a line stands for: trimmed first and second field when splitting
on `;` gives at least two fields. -/
def recordOfLine (line : JsString) : Option Account :=
  match splitOn 59 line with
  | p0 :: p1 :: _ => some { code := trim p0, label := trim p1 }
  | _ => none

/-- The record parser as section 4.1 of the specification words it: the input is
split into lines as it stands (no trimming of the whole text), the first line
is skipped when its lower-cased content holds a header marker, and every line
with at least two fields gives one record, in file order. -/
def parseCSV_spec (lower : JsString → JsString) (text : JsString) : List Account :=
  let lines := splitLines text
  let isHeader (l : JsString) : Bool :=
    includes (lower l) (js "numéro") || includes (lower l) (js "intitulé")
  let body := match lines with
    | [] => []
    | first :: rest => if isHeader first then rest else first :: rest
  body.filterMap recordOfLine

/-! ## Tree builder -/

/-- The dictionary `nodeMap`: its own properties (latest first) and, once the key
`__proto__` has been assigned, the node object installed as its prototype. -/
structure NodeMap where
  own : List (JsString × Nat)
  proto : Option Nat
deriving Repr

/-- The assignment `nodeMap[key] = obj`: the key `__proto__` runs the inherited
setter and replaces the prototype, any other key becomes an own property. -/
def NodeMap.set (m : NodeMap) (key : JsString) (obj : Nat) : NodeMap :=
  if key = protoKey then { m with proto := some obj }
  else { m with own := (key, obj) :: m.own }

/-- The node object stored under `key`, if any. -/
def NodeMap.slot (m : NodeMap) (key : JsString) : Option Nat :=
  if key = protoKey then m.proto else m.own.lookup key

/-- The read `nodeMap[key]`.  A key that was not assigned is looked up along the
prototype chain: the installed node object (own properties `code`, `label`,
`children`), then `Object.prototype`. -/
def NodeMap.get (objs : List Account) (m : NodeMap) (key : JsString) : JsValue :=
  match m.slot key with
  | some i => .node i
  | none =>
    if key = protoKey then .other
    else
      match m.proto with
      | none => objectPrototypeGet key
      | some i =>
        if key = js "code" then .str (objs.getD i ⟨[], []⟩).code
        else if key = js "label" then .str (objs.getD i ⟨[], []⟩).label
        else if key = js "children" then .other
        else objectPrototypeGet key

/-- The first `forEach` of `buildAccountTree`: one fresh node object per record,
stored under its code. -/
def fillNodeMap (sorted : List Account) : NodeMap :=
  sorted.enum.foldl (fun m ia => m.set ia.2.code ia.1) ⟨[], none⟩

/-- The inner loop `for (let i = code.length - 1; i > 0; i--)`, entered at `i`:
the node object whose `children` receives the node, `none` when the loop ends
without a parent.  A truthy `nodeMap[parentCode]` that is not a node object has
no `children`, and `.children.push` raises. -/
def findParent (objs : List Account) (m : NodeMap) (code : JsString) :
    Nat → Except JsError (Option Nat)
  | 0 => .ok none
  | i + 1 =>
    let v := m.get objs (code.take (i + 1))
    if v.truthy then
      match v with
      | .node p => .ok (some p)
      | _ => .error .typeError
    else findParent objs m code i

/-- What the second `forEach` has built so far: every `children.push` as a pair
(parent object, pushed object) in the order of the pushes, and `roots`. -/
structure Links where
  edges : List (Nat × Nat)
  roots : List Nat
deriving Repr

/-- One turn of the second `forEach` of `buildAccountTree`.  The read
`nodeMap[acc.code]` gives back the node object stored by the first loop
(`get_code_of_mem`), so its last branch is never taken. -/
def attach (objs : List Account) (m : NodeMap) (st : Links) (acc : Account) :
    Except JsError Links :=
  match m.get objs acc.code with
  | .node c =>
    match findParent objs m acc.code (acc.code.length - 1) with
    | .error e => .error e
    | .ok (some p) => .ok { st with edges := st.edges ++ [(p, c)] }
    | .ok none => .ok { st with roots := st.roots ++ [c] }
  | _ => .error .typeError

/-- The array `children` of node object `p` once the pushes `edges` are done. -/
def childrenOf (edges : List (Nat × Nat)) (p : Nat) : List Nat :=
  (edges.filter (fun e => e.1 = p)).map (fun e => e.2)

/-- Reads node object `i` and everything below it as a tree value.  The first
argument bounds the nesting depth that is read. -/
def toTree (objs : List Account) (edges : List (Nat × Nat)) : Nat → Nat → AccountNode
  | 0, i => .mk (objs.getD i ⟨[], []⟩).code (objs.getD i ⟨[], []⟩).label []
  | fuel + 1, i =>
    .mk (objs.getD i ⟨[], []⟩).code (objs.getD i ⟨[], []⟩).label
      ((childrenOf edges i).map (toTree objs edges fuel))

/-- Length of the longest code: codes get strictly longer from parent to child,
so no chain of nodes is deeper. -/
def maxCodeLength (objs : List Account) : Nat :=
  (objs.map (fun a => a.code.length)).foldr max 0

/-- The call `accounts.sort((a, b) => a.code.localeCompare(b.code))`: a stable
sort, `a` staying before `b` when the comparator is not positive. -/
def sortAccounts (cmp : JsString → JsString → Int) (accounts : List Account) : List Account :=
  accounts.insertionSort (fun a b => cmp a.code b.code ≤ 0)

/-- The function `buildAccountTree(accounts)`: sort by `localeCompare`, fill
`nodeMap`, attach every node to the node of its longest proper prefix that
`nodeMap` holds, return `roots`. -/
def buildAccountTree (cmp : JsString → JsString → Int) (accounts : List Account) :
    Except JsError (List AccountNode) :=
  let sorted := sortAccounts cmp accounts
  let nodeMap := fillNodeMap sorted
  match sorted.foldlM (attach sorted nodeMap) ⟨[], []⟩ with
  | .error e => .error e
  | .ok st => .ok (st.roots.map (toTree sorted st.edges (maxCodeLength sorted)))

/-! ## Filter engine -/

/-- The function `filterByClass(nodes, selectedClass)`. -/
def filterByClass (nodes : List AccountNode) (selectedClass : JsString) : List AccountNode :=
  nodes.filter (fun node => charAt0 node.code = selectedClass)

/-- The value `matches` computed by `filterTree` for one node: the node text is
lower-cased and stripped of accents, the query is only stripped of accents. -/
def nodeMatches (lower nfd : JsString → JsString) (query : JsString) (node : AccountNode) :
    Bool :=
  let normCode := removeAccents nfd (lower node.code)
  let normLabel := removeAccents nfd (lower node.label)
  let normQuery := removeAccents nfd query
  includes normCode normQuery || includes normLabel normQuery

mutual
/-- The function `filterTree(nodes, query)`. -/
def filterTree (lower nfd : JsString → JsString) (query : JsString) :
    List AccountNode → List AccountNode
  | [] => []
  | node :: nodes =>
    match filterNode lower nfd query node with
    | some kept => kept :: filterTree lower nfd query nodes
    | none => filterTree lower nfd query nodes
/-- The body of the `forEach` of `filterTree` for one node: the copy that is
pushed, if one is. -/
def filterNode (lower nfd : JsString → JsString) (query : JsString) :
    AccountNode → Option AccountNode
  | .mk code label children =>
    let childrenFiltered := filterTree lower nfd query children
    let isMatch := nodeMatches lower nfd query (.mk code label children)
    if isMatch || decide (childrenFiltered.length > 0) then
      some (.mk code label childrenFiltered)
    else none
end

/-- The function `filterTreeByClassAndSearch()` up to the call of `renderTree`:
`originalTreeData` is the global forest, `classSelectValue` and `searchInput`
are the values read from the page. -/
def filterTreeByClassAndSearch (lower nfd : JsString → JsString)
    (originalTreeData : List AccountNode) (classSelectValue searchInput : JsString) :
    List AccountNode :=
  let searchQuery := lower (trim searchInput)
  let filteredTree :=
    if classSelectValue ≠ js "all" then filterByClass originalTreeData classSelectValue
    else originalTreeData
  if searchQuery ≠ [] then filterTree lower nfd searchQuery filteredTree else filteredTree

/-! ## Specification vocabulary -/

mutual
/-- A node followed by all its descendants, in document order. -/
def subnodes : AccountNode → List AccountNode
  | .mk code label children => .mk code label children :: forestNodes children
/-- All nodes of a forest, in document order. -/
def forestNodes : List AccountNode → List AccountNode
  | [] => []
  | node :: nodes => subnodes node ++ forestNodes nodes
end

/-- The node itself or one of its descendants matches the query. -/
def subtreeMatches (lower nfd : JsString → JsString) (query : JsString) (node : AccountNode) :
    Bool :=
  (subnodes node).any (nodeMatches lower nfd query)

/-- The string `p` is a proper prefix of the string `s`. -/
def properPrefixOf (p s : JsString) : Prop := p <+: s ∧ p.length < s.length

/-- The record `{ code, label }` a node carries. -/
def AccountNode.toAccount (n : AccountNode) : Account := ⟨n.code, n.label⟩

/-- No record has the code `__proto__` or a code that starts with `__proto__`,
and no record has a code of which a property name inherited from
`Object.prototype` is a proper prefix. -/
def NoInheritedPrefix (accounts : List Account) : Prop :=
  ∀ a ∈ accounts, ¬ protoKey <+: a.code ∧ ∀ k ∈ objectPrototypeKeys, ¬ properPrefixOf k a.code

/-- The comparator orders strings strictly: it is zero on equal strings only,
changes sign when its arguments are swapped, and is transitive. -/
structure StrictComparator (cmp : JsString → JsString → Int) : Prop where
  eq_of_zero : ∀ a b, cmp a b = 0 → a = b
  swap : ∀ a b, cmp a b < 0 ↔ 0 < cmp b a
  trans : ∀ a b c, cmp a b < 0 → cmp b c < 0 → cmp a c < 0

/-- The comparator is consistent, as `Array.prototype.sort` requires: its sign
changes when its arguments are swapped and "not positive" is transitive.  It
may be zero on two distinct strings. -/
structure ConsistentComparator (cmp : JsString → JsString → Int) : Prop where
  swap : ∀ a b, cmp a b < 0 ↔ 0 < cmp b a
  trans : ∀ a b c, cmp a b ≤ 0 → cmp b c ≤ 0 → cmp a c ≤ 0

/-- A comparator that, like `localeCompare`, does not tell canonically equivalent
strings apart: the code-unit comparison of the canonical decompositions (on
strings of Latin-1 letters and combining marks). -/
def nfdCompare (a b : JsString) : Int := codeUnitCompare (latin1NFD a) (latin1NFD b)

/-- The first loop of `buildAccountTree` run on `l` from the dictionary `m`, the
objects being numbered from `s`. -/
def fillFrom (l : List Account) (s : Nat) (m : NodeMap) : NodeMap :=
  (l.enumFrom s).foldl (fun m ia => m.set ia.2.code ia.1) m

/-- The code of node object `i`. -/
def codeOf (objs : List Account) (i : Nat) : JsString := (objs.getD i ⟨[], []⟩).code

/-- The node objects read by `toTree`, in document order. -/
def treeIds (edges : List (Nat × Nat)) : Nat → Nat → List Nat
  | 0, i => [i]
  | fuel + 1, i => i :: (childrenOf edges i).flatMap (treeIds edges fuel)

/-- The node object the second loop reads back for a record. -/
def selfOf (objs : List Account) (m : NodeMap) (acc : Account) : Option Nat :=
  match m.get objs acc.code with
  | .node c => some c
  | _ => none

/-- The push onto a `children` array the second loop makes for a record, if it
makes one. -/
def edgeOf (objs : List Account) (m : NodeMap) (acc : Account) : Option (Nat × Nat) :=
  match m.get objs acc.code, findParent objs m acc.code (acc.code.length - 1) with
  | .node c, .ok (some p) => some (p, c)
  | _, _ => none

/-- The push onto `roots` the second loop makes for a record, if it makes one. -/
def rootOf (objs : List Account) (m : NodeMap) (acc : Account) : Option Nat :=
  match m.get objs acc.code, findParent objs m acc.code (acc.code.length - 1) with
  | .node c, .ok none => some c
  | _, _ => none

/-- What the proofs use of a finished run of `buildAccountTree`: `S` is the sorted
array, `E` the pushes onto `children` arrays, `R` the array `roots`. -/
structure TreeFacts (S : List Account) (E : List (Nat × Nat)) (R : List Nat) : Prop where
  nodup : (S.map Account.code).Nodup
  edge_lt : ∀ p c, (p, c) ∈ E → p < S.length ∧ c < S.length
  edge_nonempty : ∀ p c, (p, c) ∈ E → codeOf S p ≠ []
  edge_proper : ∀ p c, (p, c) ∈ E → properPrefixOf (codeOf S p) (codeOf S c)
  edge_longest : ∀ p c, (p, c) ∈ E → ∀ a ∈ S, properPrefixOf a.code (codeOf S c) →
    a.code.length ≤ (codeOf S p).length
  root_lt : ∀ r ∈ R, r < S.length
  root_free : ∀ r ∈ R, ∀ a ∈ S, a.code ≠ [] → ¬ properPrefixOf a.code (codeOf S r)
  cover : ∀ c, c < S.length → c ∈ R ∨ ∃ p, (p, c) ∈ E
  roots_sorted : R.Sorted (· < ·)
  edges_sorted : (E.map Prod.snd).Sorted (· < ·)

/-! # Theorems -/

/-! ## Filter engine: lemmas -/

theorem includes_nil (hay : JsString) : includes hay [] = true := by
  cases hay <;> simp [includes]

theorem charAt0_length_le (s : JsString) : (charAt0 s).length ≤ 1 := by
  simp [charAt0, List.length_take]

theorem forestNodes_any (p : AccountNode → Bool) (nodes : List AccountNode) :
    (forestNodes nodes).any p = nodes.any (fun n => (subnodes n).any p) := by
  induction nodes with
  | nil => simp [forestNodes]
  | cons n ns ih => simp [forestNodes, List.any_append, ih]

theorem subtreeMatches_mk (lower nfd : JsString → JsString) (query code label : JsString)
    (children : List AccountNode) :
    subtreeMatches lower nfd query (.mk code label children) =
      (nodeMatches lower nfd query (.mk code label children) ||
        children.any (subtreeMatches lower nfd query)) := by
  simp only [subtreeMatches, subnodes, List.any_cons, forestNodes_any]
  rfl

mutual
theorem filterNode_eq (lower nfd : JsString → JsString) (query : JsString) :
    ∀ node : AccountNode, filterNode lower nfd query node =
      if subtreeMatches lower nfd query node then
        some (.mk node.code node.label (filterTree lower nfd query node.children))
      else none
  | .mk code label children => by
    have ih := filterTree_eq lower nfd query children
    have hlen : decide ((filterTree lower nfd query children).length > 0) =
        children.any (subtreeMatches lower nfd query) := by
      rw [ih]
      by_cases h : children.any (subtreeMatches lower nfd query) = true
      · rw [h]
        obtain ⟨n, hn, hm⟩ := List.any_eq_true.1 h
        have : n ∈ children.filter (subtreeMatches lower nfd query) :=
          List.mem_filter.2 ⟨hn, hm⟩
        simp only [List.length_map, gt_iff_lt, decide_eq_true_eq]
        exact List.length_pos_of_mem this
      · have h0 : children.any (subtreeMatches lower nfd query) = false := by simpa using h
        rw [h0]
        have : children.filter (subtreeMatches lower nfd query) = [] := by
          rw [List.filter_eq_nil_iff]
          intro n hn hm
          exact h (List.any_eq_true.2 ⟨n, hn, hm⟩)
        simp [this]
    rw [filterNode, subtreeMatches_mk, hlen]
    simp only [AccountNode.code, AccountNode.label, AccountNode.children]
theorem filterTree_eq (lower nfd : JsString → JsString) (query : JsString) :
    ∀ nodes : List AccountNode, filterTree lower nfd query nodes =
      (nodes.filter (subtreeMatches lower nfd query)).map
        (fun n => .mk n.code n.label (filterTree lower nfd query n.children))
  | [] => by simp [filterTree]
  | node :: nodes => by
    have ih := filterTree_eq lower nfd query nodes
    have hn := filterNode_eq lower nfd query node
    rw [filterTree, hn]
    by_cases h : subtreeMatches lower nfd query node = true
    · simp only [h, if_true, List.filter_cons_of_pos, List.map_cons]
      rw [← ih]
    · have h0 : subtreeMatches lower nfd query node = false := by simpa using h
      rw [List.filter_cons_of_neg (by simp [h0])]
      simpa [h0] using ih
end

theorem filterByClass_all (forest : List AccountNode) : filterByClass forest (js "all") = [] := by
  rw [filterByClass, List.filter_eq_nil_iff]
  intro n _ h
  have h1 := charAt0_length_le n.code
  have h2 : charAt0 n.code = js "all" := by simpa using h
  rw [h2] at h1
  exact absurd h1 (by decide)

mutual
theorem filterNode_congr (lower nfd : JsString → JsString) (q q2 : JsString)
    (h : removeAccents nfd q = removeAccents nfd q2) :
    ∀ node : AccountNode, filterNode lower nfd q node = filterNode lower nfd q2 node
  | .mk code label children => by
    rw [filterNode, filterNode, filterTree_congr lower nfd q q2 h children]
    simp only [nodeMatches, h]
theorem filterTree_congr (lower nfd : JsString → JsString) (q q2 : JsString)
    (h : removeAccents nfd q = removeAccents nfd q2) :
    ∀ nodes : List AccountNode, filterTree lower nfd q nodes = filterTree lower nfd q2 nodes
  | [] => by simp [filterTree]
  | node :: nodes => by
    rw [filterTree, filterTree, filterNode_congr lower nfd q q2 h node,
      filterTree_congr lower nfd q q2 h nodes]
end

theorem nodeMatches_of_empty (lower nfd : JsString → JsString) (q : JsString)
    (h : removeAccents nfd q = []) (node : AccountNode) :
    nodeMatches lower nfd q node = true := by
  simp [nodeMatches, h, includes_nil]

mutual
theorem filterNode_of_empty (lower nfd : JsString → JsString) (q : JsString)
    (h : removeAccents nfd q = []) :
    ∀ node : AccountNode, filterNode lower nfd q node = some node
  | .mk code label children => by
    rw [filterNode, filterTree_of_empty lower nfd q h children,
      nodeMatches_of_empty lower nfd q h]
    simp
theorem filterTree_of_empty (lower nfd : JsString → JsString) (q : JsString)
    (h : removeAccents nfd q = []) :
    ∀ nodes : List AccountNode, filterTree lower nfd q nodes = nodes
  | [] => by simp [filterTree]
  | node :: nodes => by
    rw [filterTree, filterNode_of_empty lower nfd q h node,
      filterTree_of_empty lower nfd q h nodes]
end

theorem combined_filter_all (lower nfd : JsString → JsString)
    (forest : List AccountNode) (searchInput : JsString) :
    filterTreeByClassAndSearch lower nfd forest (js "all") searchInput =
      (if lower (trim searchInput) = [] then forest
       else filterTree lower nfd (lower (trim searchInput)) forest) := by
  show (if lower (trim searchInput) ≠ [] then
      filterTree lower nfd (lower (trim searchInput))
        (if js "all" ≠ js "all" then filterByClass forest (js "all") else forest)
    else (if js "all" ≠ js "all" then filterByClass forest (js "all") else forest)) = _
  rw [if_neg (not_not.2 rfl)]
  by_cases hq : lower (trim searchInput) = []
  · rw [if_neg (not_not.2 hq), if_pos hq]
  · rw [if_pos hq, if_neg hq]

theorem combined_filter_class (lower nfd : JsString → JsString)
    (forest : List AccountNode) (c searchInput : JsString) (hc : c ≠ js "all") :
    filterTreeByClassAndSearch lower nfd forest c searchInput =
      (if lower (trim searchInput) = [] then filterByClass forest c
       else filterTree lower nfd (lower (trim searchInput)) (filterByClass forest c)) := by
  show (if lower (trim searchInput) ≠ [] then
      filterTree lower nfd (lower (trim searchInput))
        (if c ≠ js "all" then filterByClass forest c else forest)
    else (if c ≠ js "all" then filterByClass forest c else forest)) = _
  rw [if_pos hc]
  by_cases hq : lower (trim searchInput) = []
  · rw [if_neg (not_not.2 hq), if_pos hq]
  · rw [if_pos hq, if_neg hq]

theorem mem_filterByClass {forest : List AccountNode} {c : JsString} {n : AccountNode} :
    n ∈ filterByClass forest c ↔ n ∈ forest ∧ charAt0 n.code = c := by
  rw [filterByClass, List.mem_filter, decide_eq_true_eq]

/-! ## Filter engine: the claims -/

/-- C4: `filterTree` keeps, at every level and in input order, exactly the nodes
that match the query themselves or have a matching descendant; a kept node
keeps its code and label and gets its filtered children.  In the tree
1 -> 10 -> 101 ("Caisse") the query "caisse" matches 101 only and all three
nodes are kept. -/
theorem filterTree_keeps_matching_subtrees :
    (∀ (lower nfd : JsString → JsString) (query : JsString) (forest : List AccountNode),
      filterTree lower nfd query forest =
        (forest.filter (fun n => nodeMatches lower nfd query n ||
            (forestNodes n.children).any (nodeMatches lower nfd query))).map
          (fun n => .mk n.code n.label (filterTree lower nfd query n.children))) ∧
    (nodeMatches latin1Lower latin1NFD (js "caisse")
        (.mk (js "1") (js "Ressources") [.mk (js "10") (js "Capital")
          [.mk (js "101") (js "Caisse") []]]) = false ∧
      nodeMatches latin1Lower latin1NFD (js "caisse")
        (.mk (js "10") (js "Capital") [.mk (js "101") (js "Caisse") []]) = false ∧
      nodeMatches latin1Lower latin1NFD (js "caisse") (.mk (js "101") (js "Caisse") []) = true ∧
      filterTree latin1Lower latin1NFD (js "caisse")
        [.mk (js "1") (js "Ressources") [.mk (js "10") (js "Capital")
          [.mk (js "101") (js "Caisse") []]]] =
        [.mk (js "1") (js "Ressources") [.mk (js "10") (js "Capital")
          [.mk (js "101") (js "Caisse") []]]]) := by
  refine ⟨?_, by rfl, by rfl, by rfl, by rfl⟩
  intro lower nfd query forest
  rw [filterTree_eq]
  congr 1
  apply List.filter_congr
  intro n _
  cases n with
  | mk code label children =>
    simp only [subtreeMatches, subnodes, List.any_cons, AccountNode.children]

/-- C5: with a class selector other than "all", every root of the result of
`filterTreeByClassAndSearch` is the copy of a root of the input forest whose
`code.charAt(0)` is the selector, and the result is empty when the query is
matched in no subtree of such a root.  With the class "4" and the query
"ventes", matched only under the class-7 root, the result is empty. -/
theorem combined_filter_roots_in_class (lower nfd : JsString → JsString)
    (forest : List AccountNode) (c searchInput : JsString) (hc : c ≠ js "all") :
    (∀ n ∈ filterTreeByClassAndSearch lower nfd forest c searchInput,
      ∃ r ∈ forest, charAt0 r.code = c ∧ n.code = r.code ∧ n.label = r.label) ∧
    (lower (trim searchInput) ≠ [] →
      (∀ r ∈ forest, charAt0 r.code = c →
        (subnodes r).any (nodeMatches lower nfd (lower (trim searchInput))) = false) →
      filterTreeByClassAndSearch lower nfd forest c searchInput = []) ∧
    filterTreeByClassAndSearch latin1Lower latin1NFD
      [.mk (js "4") (js "Tiers") [.mk (js "401") (js "Fournisseurs") []],
       .mk (js "7") (js "Produits") [.mk (js "701") (js "Ventes") []]]
      (js "4") (js "ventes") = [] := by
  refine ⟨?_, ?_, by rfl⟩
  · intro n hn
    rw [combined_filter_class lower nfd forest c searchInput hc] at hn
    by_cases hq : lower (trim searchInput) = []
    · rw [if_pos hq] at hn
      obtain ⟨hr, hcl⟩ := mem_filterByClass.1 hn
      exact ⟨n, hr, hcl, rfl, rfl⟩
    · rw [if_neg hq, filterTree_eq] at hn
      obtain ⟨r, hr, rfl⟩ := List.mem_map.1 hn
      obtain ⟨hr2, hcl⟩ := mem_filterByClass.1 (List.mem_filter.1 hr).1
      exact ⟨r, hr2, hcl, rfl, rfl⟩
  · intro hq hno
    rw [combined_filter_class lower nfd forest c searchInput hc, if_neg hq, filterTree_eq,
      List.map_eq_nil_iff, List.filter_eq_nil_iff]
    intro r hr hm
    obtain ⟨hr2, hcl⟩ := mem_filterByClass.1 hr
    have := hno r hr2 hcl
    rw [subtreeMatches, this] at hm
    exact Bool.noConfusion hm

/-- The hypothesis of C5 holds for the selector "4"; its conclusion on a forest with a class-4 and a class-7 root. -/
theorem combined_filter_roots_in_class_witness :
    js "4" ≠ js "all" ∧
    ∀ n ∈ filterTreeByClassAndSearch latin1Lower latin1NFD
        [.mk (js "4") (js "Tiers") [], .mk (js "7") (js "Produits") []] (js "4") (js ""),
      ∃ r ∈ [AccountNode.mk (js "4") (js "Tiers") [], .mk (js "7") (js "Produits") []],
        charAt0 r.code = js "4" ∧ n.code = r.code ∧ n.label = r.label :=
  ⟨by decide, (combined_filter_roots_in_class latin1Lower latin1NFD
    [.mk (js "4") (js "Tiers") [], .mk (js "7") (js "Produits") []] (js "4") (js "")
    (by decide)).1⟩

/-- C6 as stated fails: `filterByClass` has no case for "all" and compares it with
`code.charAt(0)` like any other selector, so a non-empty forest is emptied. -/
theorem filterByClass_all_not_identity :
    filterByClass [.mk (js "1") (js "Capital") []] (js "all") = [] ∧
    filterByClass [.mk (js "1") (js "Capital") []] (js "all") ≠
      [.mk (js "1") (js "Capital") []] :=
  ⟨by rfl, by intro h; exact List.noConfusion h⟩

/-- C6 amended: the selector "all" is the identity of the class step of
`filterTreeByClassAndSearch`, which does not call `filterByClass` for it (the
result is the forest itself for an empty query, the text filter of the whole
forest otherwise); `filterByClass(forest, "all")` itself is the empty forest. -/
theorem class_all_is_identity_in_combined_filter (lower nfd : JsString → JsString)
    (forest : List AccountNode) (searchInput : JsString) :
    filterTreeByClassAndSearch lower nfd forest (js "all") searchInput =
      (if lower (trim searchInput) = [] then forest
       else filterTree lower nfd (lower (trim searchInput)) forest) ∧
    filterByClass forest (js "all") = [] := by
  exact ⟨combined_filter_all lower nfd forest searchInput, filterByClass_all forest⟩

/-- C7: with the empty query `filterTree` returns the forest it is given, node
for node, and so does `filterTreeByClassAndSearch` (selector "all"), which
skips the text filter when the trimmed, lower-cased query is empty.
(`normalize("NFD")` maps the empty string to itself.) -/
theorem filterTree_empty_query_identity (lower nfd : JsString → JsString)
    (hnfd : nfd [] = []) (forest : List AccountNode) :
    filterTree lower nfd [] forest = forest ∧
    (∀ searchInput, lower (trim searchInput) = [] →
      filterTreeByClassAndSearch lower nfd forest (js "all") searchInput = forest) := by
  refine ⟨filterTree_of_empty lower nfd [] (by simp [removeAccents, hnfd]) forest, ?_⟩
  intro searchInput hq
  rw [(combined_filter_all lower nfd forest searchInput), if_pos hq]

/-- The hypothesis of C7 holds for the Latin-1 normaliser; its conclusion on a two-node tree. -/
theorem filterTree_empty_query_identity_witness :
    latin1NFD [] = [] ∧
    filterTree latin1Lower latin1NFD []
        [.mk (js "1") (js "Capital") [.mk (js "10") (js "Réserves") []]] =
      [.mk (js "1") (js "Capital") [.mk (js "10") (js "Réserves") []]] :=
  ⟨rfl, (filterTree_empty_query_identity latin1Lower latin1NFD rfl
    [.mk (js "1") (js "Capital") [.mk (js "10") (js "Réserves") []]]).1⟩

/-- C8 as stated fails: `filterTree` does not lower-case the query.  The query
"DEPOT" does not match the label "Dépôts et cautionnements", although its
normal form N("DEPOT") = "depot" does. -/
theorem filterTree_query_not_lowercased :
    filterTree latin1Lower latin1NFD (js "DEPOT")
      [.mk (js "275") (js "Dépôts et cautionnements") []] = [] ∧
    removeAccents latin1NFD (latin1Lower (js "DEPOT")) = js "depot" ∧
    filterTree latin1Lower latin1NFD (removeAccents latin1NFD (latin1Lower (js "DEPOT")))
      [.mk (js "275") (js "Dépôts et cautionnements") []] =
      [.mk (js "275") (js "Dépôts et cautionnements") []] :=
  ⟨by rfl, by rfl, by rfl⟩

/-- C8 amended: `filterTree` normalises the code and the label of a node with N
(lower-casing, then removal of accents) and the query with the removal of
accents A only.  A childless node is kept exactly when N(code) or N(label)
contains A(query); two queries with the same A filter every forest alike, so
`filterTree(forest, q) = filterTree(forest, A(q))` for the queries `q` on which
A is idempotent; the query is lower-cased and trimmed by the caller
`filterTreeByClassAndSearch`.  So "depot" and "dépôt" match the label
"Dépôts et cautionnements" in `filterTree`, "DEPOT" and "Dépôt" do through
`filterTreeByClassAndSearch`. -/
theorem filterTree_query_accents_only (lower nfd : JsString → JsString) (query : JsString)
    (forest : List AccountNode) :
    (∀ code label : JsString, filterTree lower nfd query [.mk code label []] =
      if includes (removeAccents nfd (lower code)) (removeAccents nfd query) ||
          includes (removeAccents nfd (lower label)) (removeAccents nfd query)
      then [.mk code label []] else []) ∧
    (∀ query2 : JsString, removeAccents nfd query = removeAccents nfd query2 →
      filterTree lower nfd query forest = filterTree lower nfd query2 forest) ∧
    (removeAccents nfd (removeAccents nfd query) = removeAccents nfd query →
      filterTree lower nfd query forest =
        filterTree lower nfd (removeAccents nfd query) forest) ∧
    (∀ searchInput : JsString, lower (trim searchInput) ≠ [] →
      filterTreeByClassAndSearch lower nfd forest (js "all") searchInput =
        filterTree lower nfd (lower (trim searchInput)) forest) ∧
    (filterTree latin1Lower latin1NFD (js "depot")
        [.mk (js "275") (js "Dépôts et cautionnements") []] =
        [.mk (js "275") (js "Dépôts et cautionnements") []] ∧
      filterTree latin1Lower latin1NFD (js "dépôt")
        [.mk (js "275") (js "Dépôts et cautionnements") []] =
        [.mk (js "275") (js "Dépôts et cautionnements") []] ∧
      filterTreeByClassAndSearch latin1Lower latin1NFD
        [.mk (js "275") (js "Dépôts et cautionnements") []] (js "all") (js "DEPOT") =
        [.mk (js "275") (js "Dépôts et cautionnements") []] ∧
      filterTreeByClassAndSearch latin1Lower latin1NFD
        [.mk (js "275") (js "Dépôts et cautionnements") []] (js "all") (js "Dépôt") =
        [.mk (js "275") (js "Dépôts et cautionnements") []]) := by
  refine ⟨?_, ?_, ?_, ?_, by rfl, by rfl, by rfl, by rfl⟩
  · intro code label
    simp only [filterTree, filterNode, nodeMatches, AccountNode.code, AccountNode.label,
      List.length_nil, gt_iff_lt, lt_self_iff_false, decide_False, Bool.or_false]
    split <;> rename_i h <;> split at h <;> simp_all
  · intro query2 h
    exact filterTree_congr lower nfd query query2 h forest
  · intro hidem
    exact filterTree_congr lower nfd query (removeAccents nfd query) hidem.symm forest
  · intro searchInput hq
    rw [combined_filter_all, if_neg hq]

/-- The removal of accents is idempotent on "Dépôt", so the query "Dépôt" and its accent-free form "Depot" filter alike. -/
theorem filterTree_query_accents_only_witness :
    removeAccents latin1NFD (removeAccents latin1NFD (js "Dépôt")) =
      removeAccents latin1NFD (js "Dépôt") ∧
    filterTree latin1Lower latin1NFD (js "Dépôt")
        [.mk (js "275") (js "Dépôts et cautionnements") []] =
      filterTree latin1Lower latin1NFD (removeAccents latin1NFD (js "Dépôt"))
        [.mk (js "275") (js "Dépôts et cautionnements") []] :=
  ⟨by rfl, (filterTree_query_accents_only latin1Lower latin1NFD (js "Dépôt")
    [.mk (js "275") (js "Dépôts et cautionnements") []]).2.2.1 (by rfl)⟩

/-! ## Class lookup -/

theorem lookup_eq_none_of_not_mem {β : Type} (l : List (JsString × β)) (k : JsString)
    (h : k ∉ l.map Prod.fst) : l.lookup k = none := by
  induction l with
  | nil => rfl
  | cons e es ih =>
    obtain ⟨a, b⟩ := e
    simp only [List.map_cons, List.mem_cons, not_or] at h
    have hne : (k == a) = false := by simpa using h.1
    rw [List.lookup_cons, hne]
    exact ih h.2

theorem classLabel_fallback (key : JsString) (hd : key ∉ classMapping.map Prod.fst)
    (hp : key ≠ protoKey) (hk : key ∉ objectPrototypeKeys) :
    classLabel key = .str (js "Classe inconnue") := by
  have hget : classMappingGet key = .undefined := by
    rw [classMappingGet, lookup_eq_none_of_not_mem classMapping key hd]
    simp only [hp, if_false, objectPrototypeGet, hk]
  rw [classLabel, hget]
  rfl

theorem length_le_one_not_inherited (key : JsString) (h : key.length ≤ 1) :
    key ≠ protoKey ∧ key ∉ objectPrototypeKeys := by
  constructor
  · intro he
    rw [he] at h
    exact absurd h (by decide)
  · intro hm
    have : ∀ k ∈ objectPrototypeKeys, 2 ≤ k.length := by decide
    have := this key hm
    omega

/-- C10 as stated fails: for a multi-character input that names a property
inherited from `Object.prototype` the lookup yields the inherited value (a
built-in function), not the fallback label. -/
theorem classLabel_inherited_key :
    classLabel (js "constructor") = .other ∧
    classLabel (js "constructor") ≠ .str (js "Classe inconnue") :=
  ⟨by rfl, by intro h; exact JsValue.noConfusion h⟩

/-- C10 amended: `classMapping[d] || "Classe inconnue"` is the mapped label for
each of the nine digits "1" to "9" ("5" gives "Comptes de trésorerie") and the
fallback "Classe inconnue" for every other string that is not the name of a
property inherited from `Object.prototype`: in particular for every string of
at most one code unit that is not such a digit (so for all that
`updateClassInfo` passes, `code.charAt(0)`), for "", "0", "x" and "10".  The
lookup is a total function: it never raises. -/
theorem classLabel_digits_and_fallback :
    (∀ p ∈ classMapping, classLabel p.1 = .str p.2) ∧
    classMapping.map Prod.fst =
      [js "1", js "2", js "3", js "4", js "5", js "6", js "7", js "8", js "9"] ∧
    classLabel (js "5") = .str (js "Comptes de trésorerie") ∧
    (∀ key : JsString, key ∉ classMapping.map Prod.fst → key ≠ protoKey →
      key ∉ objectPrototypeKeys → classLabel key = .str (js "Classe inconnue")) ∧
    (∀ key : JsString, key.length ≤ 1 → key ∉ classMapping.map Prod.fst →
      classLabel key = .str (js "Classe inconnue")) ∧
    (∀ node : AccountNode, (updateClassInfo node).2 = .str (js "Classe inconnue") ∨
      ∃ p ∈ classMapping, (updateClassInfo node).2 = .str p.2) ∧
    classLabel (js "") = .str (js "Classe inconnue") ∧
    classLabel (js "0") = .str (js "Classe inconnue") ∧
    classLabel (js "x") = .str (js "Classe inconnue") ∧
    classLabel (js "10") = .str (js "Classe inconnue") := by
  have hdig : ∀ p ∈ classMapping, classLabel p.1 = .str p.2 := by
    intro p hp
    simp only [classMapping, List.mem_cons, List.mem_singleton, List.not_mem_nil,
      or_false] at hp
    rcases hp with rfl | rfl | rfl | rfl | rfl | rfl | rfl | rfl | rfl <;> rfl
  refine ⟨hdig, by rfl, by rfl, classLabel_fallback, ?_, ?_, by rfl, by rfl, by rfl, by rfl⟩
  · intro key hlen hd
    exact classLabel_fallback key hd (length_le_one_not_inherited key hlen).1
      (length_le_one_not_inherited key hlen).2
  · intro node
    by_cases hd : charAt0 node.code ∈ classMapping.map Prod.fst
    · obtain ⟨p, hp, hpe⟩ := List.mem_map.1 hd
      exact Or.inr ⟨p, hp, by rw [updateClassInfo]; simp only []; rw [← hpe]; exact hdig p hp⟩
    · left
      have hlen := charAt0_length_le node.code
      exact classLabel_fallback _ hd (length_le_one_not_inherited _ hlen).1
        (length_le_one_not_inherited _ hlen).2

/-- The string "0" is neither a mapped digit nor an inherited property name, and gets the fallback label. -/
theorem classLabel_digits_and_fallback_witness :
    js "0" ∉ classMapping.map Prod.fst ∧ js "0" ≠ protoKey ∧ js "0" ∉ objectPrototypeKeys ∧
    classLabel (js "0") = .str (js "Classe inconnue") :=
  ⟨by decide, by decide, by decide,
    classLabel_digits_and_fallback.2.2.2.1 (js "0") (by decide) (by decide) (by decide)⟩

/-! ## Record parser -/

theorem splitOn_ne_nil (sep : Nat) (s : JsString) : splitOn sep s ≠ [] := by
  induction s with
  | nil => simp [splitOn]
  | cons c cs ih =>
    rw [splitOn]
    split
    · simp
    · split <;> simp

theorem splitOn_of_not_mem (sep : Nat) (s : JsString) (h : sep ∉ s) : splitOn sep s = [s] := by
  induction s with
  | nil => rfl
  | cons c cs ih =>
    simp only [List.mem_cons, not_or] at h
    rw [splitOn, if_neg (fun hc => h.1 hc.symm), ih h.2]

theorem splitOn_append (sep : Nat) (a rest : JsString) (h : sep ∉ a) :
    splitOn sep (a ++ sep :: rest) = a :: splitOn sep rest := by
  induction a with
  | nil => simp [splitOn]
  | cons c cs ih =>
    simp only [List.mem_cons, not_or] at h
    rw [List.cons_append, splitOn, if_neg (fun hc => h.1 hc.symm), ih h.2]

theorem stripCRs_ne_nil (ps : List JsString) (h : ps ≠ []) : stripCRs ps ≠ [] := by
  match ps, h with
  | [p], _ => simp [stripCRs]
  | p :: q :: ps, _ => simp [stripCRs]

theorem splitLines_ne_nil (text : JsString) : splitLines text ≠ [] :=
  stripCRs_ne_nil _ (splitOn_ne_nil 10 text)

theorem parseLine_eq (accounts : List Account) (line : JsString) :
    parseLine accounts line = accounts ++ (recordOfLine line).toList := by
  rw [parseLine, recordOfLine]
  split <;> simp

theorem foldl_parseLine (lines : List JsString) (accounts : List Account) :
    lines.foldl parseLine accounts = accounts ++ lines.filterMap recordOfLine := by
  induction lines generalizing accounts with
  | nil => simp
  | cons l ls ih =>
    rw [List.foldl_cons, ih, parseLine_eq, List.filterMap_cons]
    cases recordOfLine l <;> simp

theorem parseCSV_eq (lower : JsString → JsString) (text : JsString) :
    parseCSV lower text = .ok (parseCSV_spec lower (trim text)) := by
  rw [parseCSV, parseCSV_spec]
  have hne := splitLines_ne_nil (trim text)
  match hl : splitLines (trim text), hne with
  | first :: rest, _ =>
    simp only [foldl_parseLine, List.nil_append]
    by_cases hh : (includes (lower first) (js "numéro") ||
        includes (lower first) (js "intitulé")) = true
    · simp only [hh, if_true, List.drop_succ_cons, List.drop_zero]
    · simp only [hh, if_false, List.drop_zero]
      rfl

/-- C9 as stated fails: the lines are those of `text.trim()`, not of the text.
After a leading empty line the header line is the first line of the trimmed
text and is skipped, whereas it is the second line of the input and, read as
the claim says, gives the record ("numéro", "x").  Nor is a single-field line
without effect on the other lines: a title line before the header line takes
the place of the line tested for the header marker, and the header line then
gives a record. -/
theorem parseCSV_header_after_blank_line :
    parseCSV latin1Lower (js "\nnuméro;x") = .ok [] ∧
    parseCSV_spec latin1Lower (js "\nnuméro;x") = [⟨js "numéro", js "x"⟩] ∧
    parseCSV latin1Lower (js "Plan comptable\nNuméro;Intitulé\n1;Capital") =
      .ok [⟨js "Numéro", js "Intitulé"⟩, ⟨js "1", js "Capital"⟩] ∧
    parseCSV latin1Lower (js "Numéro;Intitulé\n1;Capital") = .ok [⟨js "1", js "Capital"⟩] :=
  ⟨by rfl, by rfl, by rfl, by rfl⟩

/-- C9 amended: for every input text `parseCSV` raises no error and returns what
the parser of section 4.1 returns on `text.trim()`: in the order of the lines
of the trimmed text, the first of them skipped when its lower-cased content
contains "numéro" or "intitulé", one record per line that splits on `;` into
at least two fields, made of the trimmed first and second field (further
fields ignored).  A line without `;` gives no record, and when it is not the
first line of the trimmed text the result is what the other lines give
without it.  The empty text gives the empty sequence. -/
theorem parseCSV_records_of_trimmed_text (lower : JsString → JsString) (text : JsString) :
    parseCSV lower text = .ok (parseCSV_spec lower (trim text)) ∧
    (∃ first rest, splitLines (trim text) = first :: rest ∧
      parseCSV lower text = .ok
        ((if includes (lower first) (js "numéro") || includes (lower first) (js "intitulé")
          then rest else first :: rest).filterMap recordOfLine)) ∧
    (∀ (first line : JsString) (before after : List JsString),
      splitLines (trim text) = first :: (before ++ line :: after) → 59 ∉ line →
      parseCSV lower text = .ok
        ((if includes (lower first) (js "numéro") || includes (lower first) (js "intitulé")
          then before ++ after else first :: (before ++ after)).filterMap recordOfLine)) ∧
    parseCSV lower [] = .ok [] ∧
    (∀ line : JsString, 59 ∉ line → recordOfLine line = none) ∧
    (∀ f0 f1 : JsString, 59 ∉ f0 → 59 ∉ f1 →
      recordOfLine (f0 ++ 59 :: f1) = some ⟨trim f0, trim f1⟩) ∧
    (∀ f0 f1 more : JsString, 59 ∉ f0 → 59 ∉ f1 →
      recordOfLine (f0 ++ 59 :: (f1 ++ 59 :: more)) = some ⟨trim f0, trim f1⟩) := by
  have hnone : ∀ line : JsString, 59 ∉ line → recordOfLine line = none := by
    intro line h
    rw [recordOfLine, splitOn_of_not_mem 59 line h]
  have hlines : ∀ first rest, splitLines (trim text) = first :: rest →
      parseCSV lower text = .ok
        ((if includes (lower first) (js "numéro") || includes (lower first) (js "intitulé")
          then rest else first :: rest).filterMap recordOfLine) := by
    intro first rest h
    rw [parseCSV_eq, parseCSV_spec, h]
  refine ⟨parseCSV_eq lower text, ?_, ?_, ?_, hnone, ?_, ?_⟩
  · have hne := splitLines_ne_nil (trim text)
    match hl : splitLines (trim text), hne with
    | first :: rest, _ => exact ⟨first, rest, rfl, hl ▸ hlines first rest hl⟩
  · intro first line before after h hline
    rw [hlines first _ h]
    have hn := hnone line hline
    split <;> simp [List.filterMap_append, List.filterMap_cons, hn]
  · rw [parseCSV_eq]
    have h1 : trim [] = [] := rfl
    have h2 : splitLines [] = [[]] := rfl
    rw [h1, parseCSV_spec, h2]
    simp only []
    split <;> rfl
  · intro f0 f1 h0 h1
    rw [recordOfLine, splitOn_append 59 f0 f1 h0, splitOn_of_not_mem 59 f1 h1]
  · intro f0 f1 more h0 h1
    rw [recordOfLine, splitOn_append 59 f0 _ h0, splitOn_append 59 f1 more h1]

/-- The text "1;A", "foo", "2;B" on three lines has the single-field line "foo"
as second line; the records are those of the two other lines. -/
theorem parseCSV_records_of_trimmed_text_witness :
    splitLines (trim (js "1;A\nfoo\n2;B")) = js "1;A" :: ([] ++ js "foo" :: [js "2;B"]) ∧
    59 ∉ js "foo" ∧
    parseCSV latin1Lower (js "1;A\nfoo\n2;B") = .ok [⟨js "1", js "A"⟩, ⟨js "2", js "B"⟩] :=
  ⟨by rfl, by decide,
    ((parseCSV_records_of_trimmed_text latin1Lower (js "1;A\nfoo\n2;B")).2.2.1
      (js "1;A") (js "foo") [] [js "2;B"] (by rfl) (by decide)).trans (by rfl)⟩

/-! ## Tree builder: the dictionary `nodeMap` -/

theorem slot_set (m : NodeMap) (k k2 : JsString) (v : Nat) :
    (m.set k v).slot k2 = if k2 = k then some v else m.slot k2 := by
  unfold NodeMap.set NodeMap.slot
  by_cases hk : k = protoKey
  · subst hk
    by_cases hk2 : k2 = protoKey
    · simp [hk2]
    · simp [hk2]
  · by_cases hk2 : k2 = protoKey
    · subst hk2
      have : ¬ protoKey = k := fun h => hk h.symm
      simp [hk, this]
    · by_cases he : k2 = k
      · subst he
        simp [hk, List.lookup_cons]
      · have hb : (k2 == k) = false := by simpa using he
        simp [hk, hk2, he, List.lookup_cons, hb]

theorem fillFrom_cons (a : Account) (l : List Account) (s : Nat) (m : NodeMap) :
    fillFrom (a :: l) s m = fillFrom l (s + 1) (m.set a.code s) := by
  simp [fillFrom, List.enumFrom_cons]

theorem fillNodeMap_eq (l : List Account) : fillNodeMap l = fillFrom l 0 ⟨[], none⟩ := rfl

theorem slot_fillFrom_of_not_mem (l : List Account) (s : Nat) (m : NodeMap) (k : JsString)
    (h : k ∉ l.map Account.code) : (fillFrom l s m).slot k = m.slot k := by
  induction l generalizing s m with
  | nil => rfl
  | cons a l ih =>
    simp only [List.map_cons, List.mem_cons, not_or] at h
    rw [fillFrom_cons, ih _ _ h.2, slot_set, if_neg h.1]

theorem slot_fillFrom_of_mem (l : List Account) (s : Nat) (m : NodeMap)
    (hnd : (l.map Account.code).Nodup) (j : Nat) (a : Account) (ha : l[j]? = some a) :
    (fillFrom l s m).slot a.code = some (s + j) := by
  induction l generalizing s m j with
  | nil => simp at ha
  | cons b l ih =>
    rw [List.map_cons, List.nodup_cons] at hnd
    rw [fillFrom_cons]
    cases j with
    | zero =>
      simp only [List.getElem?_cons_zero, Option.some.injEq] at ha
      subst ha
      rw [slot_fillFrom_of_not_mem _ _ _ _ hnd.1, slot_set, if_pos rfl]
      rfl
    | succ j =>
      simp only [List.getElem?_cons_succ] at ha
      rw [ih _ _ hnd.2 j ha]
      congr 1
      omega

theorem slot_fillFrom_some (l : List Account) (s : Nat) (m : NodeMap) (k : JsString) (i : Nat)
    (h : (fillFrom l s m).slot k = some i) :
    m.slot k = some i ∨ ∃ j a, l[j]? = some a ∧ i = s + j ∧ a.code = k := by
  induction l generalizing s m with
  | nil => exact Or.inl h
  | cons b l ih =>
    rw [fillFrom_cons] at h
    rcases ih _ _ h with h1 | ⟨j, a, ha, hi, hk⟩
    · rw [slot_set] at h1
      by_cases hkb : k = b.code
      · rw [if_pos hkb] at h1
        right
        refine ⟨0, b, by simp, ?_, hkb.symm⟩
        simp only [Option.some.injEq] at h1
        omega
      · rw [if_neg hkb] at h1
        exact Or.inl h1
    · right
      exact ⟨j + 1, a, by simpa using ha, by omega, hk⟩

theorem slot_fillNodeMap_of_mem (S : List Account) (hnd : (S.map Account.code).Nodup)
    (i : Nat) (a : Account) (ha : S[i]? = some a) : (fillNodeMap S).slot a.code = some i := by
  rw [fillNodeMap_eq, slot_fillFrom_of_mem S 0 _ hnd i a ha, Nat.zero_add]

theorem slot_fillNodeMap_some (S : List Account) (k : JsString) (i : Nat)
    (h : (fillNodeMap S).slot k = some i) : ∃ a, S[i]? = some a ∧ a.code = k := by
  rw [fillNodeMap_eq] at h
  rcases slot_fillFrom_some S 0 _ k i h with h1 | ⟨j, a, ha, hi, hk⟩
  · simp [NodeMap.slot] at h1
  · refine ⟨a, ?_, hk⟩
    rw [hi, Nat.zero_add]
    exact ha

theorem objectPrototypeGet_ne_node (k : JsString) (i : Nat) : objectPrototypeGet k ≠ .node i := by
  unfold objectPrototypeGet
  split <;> exact fun h => JsValue.noConfusion h

theorem get_eq_node_iff (objs : List Account) (m : NodeMap) (k : JsString) (i : Nat) :
    m.get objs k = .node i ↔ m.slot k = some i := by
  unfold NodeMap.get
  cases hs : m.slot k with
  | some j => simp
  | none =>
    simp only [reduceCtorEq, iff_false]
    split
    · exact fun h => JsValue.noConfusion h
    · split
      · exact objectPrototypeGet_ne_node k i
      · split
        · exact fun h => JsValue.noConfusion h
        · split
          · exact fun h => JsValue.noConfusion h
          · split
            · exact fun h => JsValue.noConfusion h
            · exact objectPrototypeGet_ne_node k i

theorem get_code_of_mem (S : List Account) (hnd : (S.map Account.code).Nodup)
    (i : Nat) (a : Account) (ha : S[i]? = some a) :
    (fillNodeMap S).get S a.code = .node i :=
  (get_eq_node_iff S _ _ i).2 (slot_fillNodeMap_of_mem S hnd i a ha)

theorem findParent_some (objs : List Account) (m : NodeMap) (code : JsString) (p : Nat) :
    ∀ i : Nat, findParent objs m code i = .ok (some p) →
      ∃ len, 1 ≤ len ∧ len ≤ i ∧ m.slot (code.take len) = some p ∧
        ∀ len2, len < len2 → len2 ≤ i → (m.get objs (code.take len2)).truthy = false
  | 0, h => by simp [findParent] at h
  | i + 1, h => by
    rw [findParent] at h
    by_cases ht : (m.get objs (code.take (i + 1))).truthy = true
    · simp only [ht, if_true] at h
      cases hv : m.get objs (code.take (i + 1)) with
      | node q =>
        rw [hv] at h
        simp only [Except.ok.injEq, Option.some.injEq] at h
        subst h
        exact ⟨i + 1, by omega, le_refl _, (get_eq_node_iff _ _ _ _).1 hv,
          fun len2 h1 h2 => by omega⟩
      | undefined => rw [hv] at h; simp at h
      | str t => rw [hv] at h; simp at h
      | other => rw [hv] at h; simp at h
    · simp only [ht, if_false] at h
      obtain ⟨len, h1, h2, h3, h4⟩ := findParent_some objs m code p i h
      refine ⟨len, h1, by omega, h3, ?_⟩
      intro len2 hl hl2
      by_cases he : len2 = i + 1
      · subst he
        simpa using ht
      · exact h4 len2 hl (by omega)

theorem findParent_none (objs : List Account) (m : NodeMap) (code : JsString) :
    ∀ i : Nat, findParent objs m code i = .ok none →
      ∀ len2, 1 ≤ len2 → len2 ≤ i → (m.get objs (code.take len2)).truthy = false
  | 0, _ => fun len2 h1 h2 => by omega
  | i + 1, h => by
    rw [findParent] at h
    by_cases ht : (m.get objs (code.take (i + 1))).truthy = true
    · simp only [ht, if_true] at h
      cases hv : m.get objs (code.take (i + 1)) with
      | node q => rw [hv] at h; simp at h
      | undefined => rw [hv] at h; simp at h
      | str t => rw [hv] at h; simp at h
      | other => rw [hv] at h; simp at h
    · simp only [ht, if_false] at h
      intro len2 h1 h2
      by_cases he : len2 = i + 1
      · subst he
        simpa using ht
      · exact findParent_none objs m code i h len2 h1 (by omega)

theorem findParent_ok (objs : List Account) (m : NodeMap) (code : JsString) :
    ∀ i : Nat,
      (∀ len, 1 ≤ len → len ≤ i → (m.get objs (code.take len)).truthy = true →
        ∃ q, m.get objs (code.take len) = .node q) →
      ∃ r, findParent objs m code i = .ok r
  | 0, _ => ⟨none, rfl⟩
  | i + 1, h => by
    rw [findParent]
    by_cases ht : (m.get objs (code.take (i + 1))).truthy = true
    · obtain ⟨q, hq⟩ := h (i + 1) (by omega) (le_refl _) ht
      simp only [ht, if_true, hq]
      exact ⟨some q, rfl⟩
    · simp only [ht, if_false]
      exact findParent_ok objs m code i (fun len h1 h2 h3 => h len h1 (by omega) h3)

/-! ## Tree builder: the second loop -/

theorem attach_ok (objs : List Account) (m : NodeMap) (st st2 : Links) (a : Account)
    (h : attach objs m st a = .ok st2) :
    (∃ p c, edgeOf objs m a = some (p, c) ∧ rootOf objs m a = none ∧
        st2 = { st with edges := st.edges ++ [(p, c)] }) ∨
    (∃ c, rootOf objs m a = some c ∧ edgeOf objs m a = none ∧
        st2 = { st with roots := st.roots ++ [c] }) := by
  unfold attach at h
  unfold edgeOf rootOf
  cases hv : m.get objs a.code with
  | node c =>
    rw [hv] at h
    simp only at h
    cases hf : findParent objs m a.code (a.code.length - 1) with
    | error e => rw [hf] at h; simp at h
    | ok r =>
      rw [hf] at h
      cases r with
      | some q =>
        simp only [Except.ok.injEq] at h
        exact Or.inl ⟨q, c, rfl, rfl, h.symm⟩
      | none =>
        simp only [Except.ok.injEq] at h
        exact Or.inr ⟨c, rfl, rfl, h.symm⟩
  | undefined => rw [hv] at h; simp at h
  | str t => rw [hv] at h; simp at h
  | other => rw [hv] at h; simp at h

theorem foldlM_attach_ok (objs : List Account) (m : NodeMap) :
    ∀ (l : List Account) (st st2 : Links), l.foldlM (attach objs m) st = .ok st2 →
      st2.edges = st.edges ++ l.filterMap (edgeOf objs m) ∧
      st2.roots = st.roots ++ l.filterMap (rootOf objs m) ∧
      ∀ a ∈ l, (edgeOf objs m a).isSome = true ∨ (rootOf objs m a).isSome = true
  | [], st, st2, h => by
    simp only [List.foldlM_nil, pure, Except.pure, Except.ok.injEq] at h
    subst h
    simp
  | a :: l, st, st2, h => by
    rw [List.foldlM_cons] at h
    cases hs : attach objs m st a with
    | error e => rw [hs] at h; simp [bind, Except.bind] at h
    | ok st1 =>
      rw [hs] at h
      simp only [bind, Except.bind] at h
      obtain ⟨he, hr, hc⟩ := foldlM_attach_ok objs m l st1 st2 h
      rcases attach_ok objs m st st1 a hs with ⟨p, c, h1, h2, h3⟩ | ⟨c, h1, h2, h3⟩
      · subst h3
        refine ⟨?_, ?_, ?_⟩
        · rw [he, List.filterMap_cons, h1]
          simp
        · rw [hr, List.filterMap_cons, h2]
        · intro b hb
          rcases List.mem_cons.1 hb with rfl | hb
          · exact Or.inl (by rw [h1]; rfl)
          · exact hc b hb
      · subst h3
        refine ⟨?_, ?_, ?_⟩
        · rw [he, List.filterMap_cons, h2]
        · rw [hr, List.filterMap_cons, h1]
          simp
        · intro b hb
          rcases List.mem_cons.1 hb with rfl | hb
          · exact Or.inr (by rw [h1]; rfl)
          · exact hc b hb

theorem foldlM_attach_total (objs : List Account) (m : NodeMap) :
    ∀ (l : List Account) (st : Links),
      (∀ a ∈ l, ∃ c, m.get objs a.code = .node c) →
      (∀ a ∈ l, ∃ r, findParent objs m a.code (a.code.length - 1) = .ok r) →
      ∃ st2, l.foldlM (attach objs m) st = .ok st2
  | [], st, _, _ => ⟨st, rfl⟩
  | a :: l, st, hg, hf => by
    obtain ⟨c, hc⟩ := hg a (List.mem_cons_self _ _)
    obtain ⟨r, hr⟩ := hf a (List.mem_cons_self _ _)
    have hs : ∃ st1, attach objs m st a = .ok st1 := by
      unfold attach
      rw [hc]
      simp only [hr]
      cases r with
      | some q => exact ⟨_, rfl⟩
      | none => exact ⟨_, rfl⟩
    obtain ⟨st1, hs⟩ := hs
    rw [List.foldlM_cons, hs]
    exact foldlM_attach_total objs m l st1
      (fun b hb => hg b (List.mem_cons_of_mem _ hb))
      (fun b hb => hf b (List.mem_cons_of_mem _ hb))

/-! ## Tree builder: the object graph -/

theorem properPrefixOf_trans {a b c : JsString} (h1 : properPrefixOf a b)
    (h2 : properPrefixOf b c) : properPrefixOf a c :=
  ⟨h1.1.trans h2.1, lt_trans h1.2 h2.2⟩

theorem prefix_comparable {x y z : JsString} (hx : x <+: z) (hy : y <+: z) :
    x = y ∨ properPrefixOf x y ∨ properPrefixOf y x := by
  rcases Nat.lt_trichotomy x.length y.length with h | h | h
  · exact Or.inr (Or.inl ⟨List.prefix_of_prefix_length_le hx hy (le_of_lt h), h⟩)
  · left
    rw [List.prefix_iff_eq_take] at hx hy
    rw [hx, hy, h]
  · exact Or.inr (Or.inr ⟨List.prefix_of_prefix_length_le hy hx (le_of_lt h), h⟩)

theorem codeOf_eq (S : List Account) (i : Nat) (h : i < S.length) :
    ∃ a, S[i]? = some a ∧ a ∈ S ∧ codeOf S i = a.code ∧ S.getD i ⟨[], []⟩ = a := by
  refine ⟨S[i], List.getElem?_eq_getElem h, List.getElem_mem h, ?_, ?_⟩
  · simp [codeOf, List.getD_eq_getElem?_getD, List.getElem?_eq_getElem h]
  · simp [List.getD_eq_getElem?_getD, List.getElem?_eq_getElem h]

theorem codeOf_inj (S : List Account) (hnd : (S.map Account.code).Nodup) (i j : Nat)
    (hi : i < S.length) (hj : j < S.length) (h : codeOf S i = codeOf S j) : i = j := by
  have hi2 : i < (S.map Account.code).length := by simpa using hi
  have hj2 : j < (S.map Account.code).length := by simpa using hj
  have e1 : (S.map Account.code)[i] = codeOf S i := by
    simp [codeOf, List.getD_eq_getElem?_getD, List.getElem?_eq_getElem hi]
  have e2 : (S.map Account.code)[j] = codeOf S j := by
    simp [codeOf, List.getD_eq_getElem?_getD, List.getElem?_eq_getElem hj]
  exact (hnd.getElem_inj_iff).1 (by rw [e1, e2, h])

theorem length_le_maxCodeLength (S : List Account) (a : Account) (h : a ∈ S) :
    a.code.length ≤ maxCodeLength S := by
  induction S with
  | nil => simp at h
  | cons b S ih =>
    simp only [maxCodeLength, List.map_cons, List.foldr_cons]
    rcases List.mem_cons.1 h with rfl | h
    · exact le_max_left _ _
    · exact le_trans (ih h) (le_max_right _ _)

theorem length_codeOf_le (S : List Account) (i : Nat) (h : i < S.length) :
    (codeOf S i).length ≤ maxCodeLength S := by
  obtain ⟨a, _, ha, hc, _⟩ := codeOf_eq S i h
  rw [hc]
  exact length_le_maxCodeLength S a ha

theorem mem_childrenOf (E : List (Nat × Nat)) (p c : Nat) :
    c ∈ childrenOf E p ↔ (p, c) ∈ E := by
  unfold childrenOf
  simp only [List.mem_map, List.mem_filter, decide_eq_true_eq]
  constructor
  · rintro ⟨⟨a, b⟩, ⟨h1, h2⟩, h3⟩
    simp only at h2 h3
    subst h2 h3
    exact h1
  · intro h
    exact ⟨(p, c), ⟨h, rfl⟩, rfl⟩

theorem childrenOf_sorted (E : List (Nat × Nat)) (p : Nat)
    (h : (E.map Prod.snd).Sorted (· < ·)) : (childrenOf E p).Sorted (· < ·) := by
  unfold childrenOf
  exact List.Pairwise.sublist (List.Sublist.map _ (List.filter_sublist _)) h

theorem treeIds_self (E : List (Nat × Nat)) (f i : Nat) : i ∈ treeIds E f i := by
  cases f <;> simp [treeIds]

theorem mem_treeIds_succ (E : List (Nat × Nat)) (f i j : Nat) :
    j ∈ treeIds E (f + 1) i ↔ j = i ∨ ∃ c, (i, c) ∈ E ∧ j ∈ treeIds E f c := by
  simp only [treeIds, List.mem_cons, List.mem_flatMap, mem_childrenOf]

theorem treeIds_below {S : List Account} {E : List (Nat × Nat)} {R : List Nat}
    (T : TreeFacts S E R) : ∀ (f i j : Nat), j ∈ treeIds E f i →
      j = i ∨ (codeOf S i ≠ [] ∧ properPrefixOf (codeOf S i) (codeOf S j))
  | 0, i, j, h => by
    simp only [treeIds, List.mem_singleton] at h
    exact Or.inl h
  | f + 1, i, j, h => by
    rcases (mem_treeIds_succ E f i j).1 h with h | ⟨c, hc, hj⟩
    · exact Or.inl h
    · right
      refine ⟨T.edge_nonempty i c hc, ?_⟩
      rcases treeIds_below T f c j hj with rfl | ⟨_, h2⟩
      · exact T.edge_proper i _ hc
      · exact properPrefixOf_trans (T.edge_proper i c hc) h2

theorem treeIds_lt {S : List Account} {E : List (Nat × Nat)} {R : List Nat}
    (T : TreeFacts S E R) : ∀ (f i j : Nat), i < S.length → j ∈ treeIds E f i → j < S.length
  | 0, i, j, hi, h => by
    simp only [treeIds, List.mem_singleton] at h
    omega
  | f + 1, i, j, hi, h => by
    rcases (mem_treeIds_succ E f i j).1 h with h | ⟨c, hc, hj⟩
    · omega
    · exact treeIds_lt T f c j (T.edge_lt i c hc).2 hj

theorem sibling_disjoint {S : List Account} {E : List (Nat × Nat)} {R : List Nat}
    (T : TreeFacts S E R) (p c c2 f f2 j : Nat) (hc : (p, c) ∈ E) (hc2 : (p, c2) ∈ E)
    (hne : c ≠ c2) (hj : j ∈ treeIds E f c) (hj2 : j ∈ treeIds E f2 c2) : False := by
  obtain ⟨a, _, ha, hac, _⟩ := codeOf_eq S c (T.edge_lt p c hc).2
  obtain ⟨a2, _, ha2, hac2, _⟩ := codeOf_eq S c2 (T.edge_lt p c2 hc2).2
  have hp := (T.edge_proper p c hc).2
  have hp2 := (T.edge_proper p c2 hc2).2
  have key : ∀ {x y : Nat}, (p, x) ∈ E → (p, y) ∈ E → y < S.length →
      properPrefixOf (codeOf S y) (codeOf S x) → False := by
    intro x y hx hy hyl hxy
    obtain ⟨b, _, hb, hbc, _⟩ := codeOf_eq S y hyl
    have h1 := T.edge_longest p x hx b hb (hbc ▸ hxy)
    have h2 := (T.edge_proper p y hy).2
    rw [hbc] at h2
    omega
  have hpre : codeOf S c <+: codeOf S j := by
    rcases treeIds_below T f c j hj with rfl | ⟨_, h⟩
    · exact List.prefix_refl _
    · exact h.1
  have hpre2 : codeOf S c2 <+: codeOf S j := by
    rcases treeIds_below T f2 c2 j hj2 with rfl | ⟨_, h⟩
    · exact List.prefix_refl _
    · exact h.1
  rcases prefix_comparable hpre hpre2 with h | h | h
  · exact hne (codeOf_inj S T.nodup c c2 (T.edge_lt p c hc).2 (T.edge_lt p c2 hc2).2 h)
  · exact key hc2 hc (T.edge_lt p c hc).2 h
  · exact key hc hc2 (T.edge_lt p c2 hc2).2 h

theorem root_disjoint {S : List Account} {E : List (Nat × Nat)} {R : List Nat}
    (T : TreeFacts S E R) (r r2 f f2 j : Nat) (hr : r ∈ R) (hr2 : r2 ∈ R)
    (hne : r ≠ r2) (hj : j ∈ treeIds E f r) (hj2 : j ∈ treeIds E f2 r2) : False := by
  have key : ∀ {x y : Nat}, x ∈ R → y ∈ R → codeOf S y ≠ [] →
      properPrefixOf (codeOf S y) (codeOf S x) → False := by
    intro x y hx hy hye hxy
    obtain ⟨b, _, hb, hbc, _⟩ := codeOf_eq S y (T.root_lt y hy)
    exact T.root_free x hx b hb (hbc ▸ hye) (hbc ▸ hxy)
  have hinj := codeOf_inj S T.nodup r r2 (T.root_lt r hr) (T.root_lt r2 hr2)
  rcases treeIds_below T f r j hj with h1 | ⟨hn1, h1⟩ <;>
    rcases treeIds_below T f2 r2 j hj2 with h2 | ⟨hn2, h2⟩
  · exact hne (h1.symm.trans h2)
  · subst h1
    exact key hr hr2 hn2 h2
  · subst h2
    exact key hr2 hr hn1 h1
  · rcases prefix_comparable h1.1 h2.1 with h | h | h
    · exact hne (hinj h)
    · exact key hr2 hr hn1 h
    · exact key hr hr2 hn2 h

theorem nodup_treeIds {S : List Account} {E : List (Nat × Nat)} {R : List Nat}
    (T : TreeFacts S E R) : ∀ (f i : Nat), (treeIds E f i).Nodup
  | 0, i => by simp [treeIds]
  | f + 1, i => by
    rw [treeIds, List.nodup_cons]
    constructor
    · intro hmem
      obtain ⟨c, hc, hi⟩ := List.mem_flatMap.1 hmem
      rw [mem_childrenOf] at hc
      have h1 := (T.edge_proper i c hc).2
      rcases treeIds_below T f c i hi with h | ⟨_, h⟩
      · subst h
        omega
      · have := h.2
        omega
    · rw [List.nodup_flatMap]
      refine ⟨fun c _ => nodup_treeIds T f c, ?_⟩
      have hnd : (childrenOf E i).Nodup :=
        List.Sorted.nodup (childrenOf_sorted E i T.edges_sorted)
      apply hnd.pairwise_of_forall_ne
      intro c hc c2 hc2 hne
      rw [mem_childrenOf] at hc hc2
      intro j h1 h2
      exact sibling_disjoint T i c c2 f f j hc hc2 hne h1 h2

theorem reach_child {S : List Account} {E : List (Nat × Nat)} {R : List Nat}
    (T : TreeFacts S E R) (p j : Nat) (hpj : (p, j) ∈ E) :
    ∀ (f i : Nat), maxCodeLength S ≤ f + (codeOf S i).length → p ∈ treeIds E f i →
      j ∈ treeIds E f i
  | 0, i, hf, hp => by
    simp only [treeIds, List.mem_singleton] at hp
    subst hp
    have h1 := (T.edge_proper p j hpj).2
    have h2 := length_codeOf_le S j (T.edge_lt p j hpj).2
    omega
  | f + 1, i, hf, hp => by
    rw [mem_treeIds_succ] at hp ⊢
    right
    rcases hp with rfl | ⟨c, hc, hp⟩
    · exact ⟨j, hpj, treeIds_self E f j⟩
    · have h1 := (T.edge_proper i c hc).2
      exact ⟨c, hc, reach_child T p j hpj f c (by omega) hp⟩

theorem covered {S : List Account} {E : List (Nat × Nat)} {R : List Nat}
    (T : TreeFacts S E R) : ∀ (k j : Nat), (codeOf S j).length = k → j < S.length →
      ∃ r ∈ R, j ∈ treeIds E (maxCodeLength S) r := by
  intro k
  induction k using Nat.strong_induction_on with
  | _ k ih =>
    intro j hk hj
    rcases T.cover j hj with hr | ⟨p, hp⟩
    · exact ⟨j, hr, treeIds_self E _ j⟩
    · have h1 := (T.edge_proper p j hp).2
      obtain ⟨r, hr, hpr⟩ := ih _ (hk ▸ h1) p rfl (T.edge_lt p j hp).1
      exact ⟨r, hr, reach_child T p j hp _ r (Nat.le_add_right _ _) hpr⟩

theorem treeIds_perm_range {S : List Account} {E : List (Nat × Nat)} {R : List Nat}
    (T : TreeFacts S E R) :
    (R.flatMap (treeIds E (maxCodeLength S))).Perm (List.range S.length) := by
  have hnd : (R.flatMap (treeIds E (maxCodeLength S))).Nodup := by
    rw [List.nodup_flatMap]
    refine ⟨fun r _ => nodup_treeIds T _ r, ?_⟩
    apply (List.Sorted.nodup T.roots_sorted).pairwise_of_forall_ne
    intro r hr r2 hr2 hne j h1 h2
    exact root_disjoint T r r2 _ _ j hr hr2 hne h1 h2
  rw [List.perm_ext_iff_of_nodup hnd (List.nodup_range _)]
  intro j
  rw [List.mem_flatMap, List.mem_range]
  constructor
  · rintro ⟨r, hr, hj⟩
    exact treeIds_lt T _ r j (T.root_lt r hr) hj
  · intro hj
    exact covered T _ j rfl hj

theorem map_getD_range (S : List Account) :
    (List.range S.length).map (fun j => S.getD j ⟨[], []⟩) = S := by
  apply List.ext_getElem
  · simp
  · intro i h1 h2
    simp [List.getD_eq_getElem?_getD, List.getElem?_eq_getElem h2]

theorem mem_forestNodes (n : AccountNode) (l : List AccountNode) :
    n ∈ forestNodes l ↔ ∃ t ∈ l, n ∈ subnodes t := by
  induction l with
  | nil => simp [forestNodes]
  | cons t l ih => simp [forestNodes, List.mem_append, ih]

theorem subnodes_eq (n : AccountNode) : subnodes n = n :: forestNodes n.children := by
  cases n with
  | mk c l ch => simp [subnodes, AccountNode.children]

theorem forestNodes_map {α : Type} (g : α → AccountNode) (l : List α) :
    forestNodes (l.map g) = l.flatMap (fun x => subnodes (g x)) := by
  induction l with
  | nil => simp [forestNodes]
  | cons x l ih => simp [forestNodes, ih]

theorem toTree_code (S : List Account) (E : List (Nat × Nat)) (f i : Nat) :
    (toTree S E f i).code = codeOf S i := by
  cases f <;> simp [toTree, AccountNode.code, codeOf]

theorem toTree_toAccount (S : List Account) (E : List (Nat × Nat)) (f i : Nat) :
    (toTree S E f i).toAccount = S.getD i ⟨[], []⟩ := by
  cases f <;> simp [toTree, AccountNode.toAccount, AccountNode.code, AccountNode.label]

theorem toTree_children (S : List Account) (E : List (Nat × Nat)) (f i : Nat) :
    (toTree S E f i).children = [] ∨
      ∃ g, (toTree S E f i).children = (childrenOf E i).map (toTree S E g) := by
  cases f with
  | zero => exact Or.inl (by simp [toTree, AccountNode.children])
  | succ f => exact Or.inr ⟨f, by simp [toTree, AccountNode.children]⟩

theorem subnodes_toTree_accounts (S : List Account) (E : List (Nat × Nat)) :
    ∀ (f i : Nat), (subnodes (toTree S E f i)).map AccountNode.toAccount =
      (treeIds E f i).map (fun j => S.getD j ⟨[], []⟩)
  | 0, i => by
    rw [subnodes_eq, List.map_cons, toTree_toAccount]
    simp [toTree, AccountNode.children, forestNodes, treeIds]
  | f + 1, i => by
    rw [subnodes_eq, List.map_cons, toTree_toAccount, treeIds, List.map_cons]
    congr 1
    have hch : (toTree S E (f + 1) i).children = (childrenOf E i).map (toTree S E f) := by
      simp [toTree, AccountNode.children]
    rw [hch, forestNodes_map]
    induction childrenOf E i with
    | nil => simp
    | cons c cs ih =>
      simp only [List.flatMap_cons, List.map_append, ih]
      rw [subnodes_toTree_accounts S E f c]

theorem forest_accounts (S : List Account) (E : List (Nat × Nat)) (R : List Nat) (f : Nat) :
    (forestNodes (R.map (toTree S E f))).map AccountNode.toAccount =
      (R.flatMap (treeIds E f)).map (fun j => S.getD j ⟨[], []⟩) := by
  rw [forestNodes_map]
  induction R with
  | nil => simp
  | cons r rs ih =>
    simp only [List.flatMap_cons, List.map_append, ih]
    rw [subnodes_toTree_accounts S E f r]

theorem forest_accounts_perm {S : List Account} {E : List (Nat × Nat)} {R : List Nat}
    (T : TreeFacts S E R) :
    ((forestNodes (R.map (toTree S E (maxCodeLength S)))).map AccountNode.toAccount).Perm S := by
  rw [forest_accounts]
  have h := (treeIds_perm_range T).map (fun j => S.getD j ⟨[], []⟩)
  rw [map_getD_range] at h
  exact h

theorem subnodes_toTree (S : List Account) (E : List (Nat × Nat)) :
    ∀ (f i : Nat) (n : AccountNode), n ∈ subnodes (toTree S E f i) →
      ∃ g j, n = toTree S E g j ∧ j ∈ treeIds E f i
  | 0, i, n, h => by
    rw [subnodes_eq] at h
    simp only [toTree, AccountNode.children, forestNodes, List.mem_singleton] at h
    exact ⟨0, i, by rw [h]; rfl, treeIds_self E 0 i⟩
  | f + 1, i, n, h => by
    rw [subnodes_eq, List.mem_cons] at h
    rcases h with h | h
    · exact ⟨f + 1, i, h, treeIds_self E _ i⟩
    · have hch : (toTree S E (f + 1) i).children = (childrenOf E i).map (toTree S E f) := by
        simp [toTree, AccountNode.children]
      rw [hch, mem_forestNodes] at h
      obtain ⟨t, ht, hn⟩ := h
      obtain ⟨c, hc, rfl⟩ := List.mem_map.1 ht
      obtain ⟨g, j, hg, hj⟩ := subnodes_toTree S E f c n hn
      exact ⟨g, j, hg, (mem_treeIds_succ E f i j).2
        (Or.inr ⟨c, (mem_childrenOf E i c).1 hc, hj⟩)⟩

/-! ## Tree builder: a finished run -/

theorem filterMap_sublist_of_imp {α β : Type} (f g : α → Option β)
    (h : ∀ a x, f a = some x → g a = some x) :
    ∀ l : List α, (l.filterMap f).Sublist (l.filterMap g)
  | [] => by simp
  | a :: l => by
    rw [List.filterMap_cons, List.filterMap_cons]
    cases hf : f a with
    | none =>
      simp only
      cases hg : g a with
      | none => exact filterMap_sublist_of_imp f g h l
      | some y => exact (filterMap_sublist_of_imp f g h l).cons _
    | some x =>
      rw [h a x hf]
      exact (filterMap_sublist_of_imp f g h l).cons₂ _

theorem filterMap_eq_range {α : Type} (sf : α → Option Nat) :
    ∀ (l : List α) (s : Nat), (∀ j a, l[j]? = some a → sf a = some (s + j)) →
      l.filterMap sf = List.range' s l.length
  | [], s, _ => by simp
  | a :: l, s, h => by
    have h0 := h 0 a (by simp)
    rw [List.filterMap_cons, h0]
    simp only [Nat.add_zero, List.length_cons, List.range'_succ, List.cons.injEq, true_and]
    apply filterMap_eq_range sf l (s + 1)
    intro j b hb
    rw [h (j + 1) b (by simpa using hb)]
    congr 1
    omega

theorem selfOf_eq_some (objs : List Account) (m : NodeMap) (a : Account) (c : Nat) :
    selfOf objs m a = some c ↔ m.get objs a.code = .node c := by
  unfold selfOf
  cases m.get objs a.code <;> simp

theorem edgeOf_eq_some (objs : List Account) (m : NodeMap) (a : Account) (p c : Nat) :
    edgeOf objs m a = some (p, c) ↔
      m.get objs a.code = .node c ∧
        findParent objs m a.code (a.code.length - 1) = .ok (some p) := by
  unfold edgeOf
  cases m.get objs a.code with
  | node d =>
    cases findParent objs m a.code (a.code.length - 1) with
    | error e => simp
    | ok r =>
      cases r with
      | none => simp
      | some q => simp [and_comm]
  | undefined => simp
  | str t => simp
  | other => simp

theorem rootOf_eq_some (objs : List Account) (m : NodeMap) (a : Account) (c : Nat) :
    rootOf objs m a = some c ↔
      m.get objs a.code = .node c ∧
        findParent objs m a.code (a.code.length - 1) = .ok none := by
  unfold rootOf
  cases m.get objs a.code with
  | node d =>
    cases findParent objs m a.code (a.code.length - 1) with
    | error e => simp
    | ok r =>
      cases r with
      | none => simp
      | some q => simp
  | undefined => simp
  | str t => simp
  | other => simp

theorem truthy_of_mem (S : List Account) (hnd : (S.map Account.code).Nodup) (b : Account)
    (hb : b ∈ S) : ((fillNodeMap S).get S b.code).truthy = true := by
  obtain ⟨i, hi, rfl⟩ := List.getElem_of_mem hb
  rw [get_code_of_mem S hnd i S[i] (List.getElem?_eq_getElem hi)]
  rfl

theorem falsy_prefixes_free (S : List Account) (hnd : (S.map Account.code).Nodup)
    (code : JsString) (lo : Nat)
    (h : ∀ len2, lo < len2 → len2 ≤ code.length - 1 →
      ((fillNodeMap S).get S (code.take len2)).truthy = false)
    (b : Account) (hb : b ∈ S) (hp : properPrefixOf b.code code) : b.code.length ≤ lo := by
  by_contra hlt
  have h1 := h b.code.length (by omega) (by have := hp.2; omega)
  rw [← List.prefix_iff_eq_take.1 hp.1, truthy_of_mem S hnd b hb] at h1
  exact Bool.noConfusion h1

theorem mem_index_unique (S : List Account) (hnd : (S.map Account.code).Nodup)
    (a : Account) (ha : a ∈ S) (c : Nat) (hc : (fillNodeMap S).get S a.code = .node c) :
    c < S.length ∧ S[c]? = some a ∧ codeOf S c = a.code := by
  obtain ⟨i, hi, rfl⟩ := List.getElem_of_mem ha
  have h1 := get_code_of_mem S hnd i S[i] (List.getElem?_eq_getElem hi)
  rw [h1] at hc
  simp only [JsValue.node.injEq] at hc
  subst hc
  refine ⟨hi, List.getElem?_eq_getElem hi, ?_⟩
  simp [codeOf, List.getD_eq_getElem?_getD, List.getElem?_eq_getElem hi]

theorem treeFacts_of_run (S : List Account) (hnd : (S.map Account.code).Nodup) (st : Links)
    (hrun : S.foldlM (attach S (fillNodeMap S)) ⟨[], []⟩ = .ok st) :
    TreeFacts S st.edges st.roots := by
  obtain ⟨hE, hR, hcov⟩ := foldlM_attach_ok S (fillNodeMap S) S ⟨[], []⟩ st hrun
  simp only [List.nil_append] at hE hR
  have hself : S.filterMap (selfOf S (fillNodeMap S)) = List.range' 0 S.length := by
    apply filterMap_eq_range
    intro j a ha
    rw [selfOf_eq_some, Nat.zero_add]
    exact get_code_of_mem S hnd j a ha
  have hsorted : (S.filterMap (selfOf S (fillNodeMap S))).Sorted (· < ·) := by
    rw [hself]
    exact List.pairwise_lt_range' 0 S.length
  have hedge : ∀ p c, (p, c) ∈ st.edges → ∃ a ∈ S, c < S.length ∧ codeOf S c = a.code ∧
      ∃ len, 1 ≤ len ∧ len ≤ a.code.length - 1 ∧ p < S.length ∧
        codeOf S p = a.code.take len ∧
        ∀ len2, len < len2 → len2 ≤ a.code.length - 1 →
          ((fillNodeMap S).get S (a.code.take len2)).truthy = false := by
    intro p c h
    rw [hE, List.mem_filterMap] at h
    obtain ⟨a, ha, he⟩ := h
    rw [edgeOf_eq_some] at he
    obtain ⟨hc1, hc2, hc3⟩ := mem_index_unique S hnd a ha c he.1
    obtain ⟨len, h1, h2, h3, h4⟩ := findParent_some S _ a.code p _ he.2
    obtain ⟨b, hb, hbc⟩ := slot_fillNodeMap_some S _ p h3
    have hp : p < S.length := by
      by_contra hge
      rw [List.getElem?_eq_none (by omega)] at hb
      exact Option.noConfusion hb
    refine ⟨a, ha, hc1, hc3, len, h1, h2, hp, ?_, h4⟩
    simp [codeOf, List.getD_eq_getElem?_getD, hb, hbc]
  refine ⟨hnd, ?_, ?_, ?_, ?_, ?_, ?_, ?_, ?_, ?_⟩
  · intro p c h
    obtain ⟨a, _, hc, _, len, _, _, hp, _⟩ := hedge p c h
    exact ⟨hp, hc⟩
  · intro p c h
    obtain ⟨a, _, _, _, len, h1, h2, _, hpc, _⟩ := hedge p c h
    intro he
    have : (codeOf S p).length = len := by
      rw [hpc, List.length_take]
      omega
    rw [he] at this
    simp at this
    omega
  · intro p c h
    obtain ⟨a, _, _, hcc, len, h1, h2, _, hpc, _⟩ := hedge p c h
    rw [hpc, hcc]
    refine ⟨ List.take_prefix _ _, ?_⟩
    rw [List.length_take]
    omega
  · intro p c h b hb hpre
    obtain ⟨a, _, _, hcc, len, h1, h2, _, hpc, h4⟩ := hedge p c h
    rw [hcc] at hpre
    have := falsy_prefixes_free S hnd a.code len h4 b hb hpre
    rw [hpc, List.length_take]
    omega
  · intro r hr
    rw [hR, List.mem_filterMap] at hr
    obtain ⟨a, ha, he⟩ := hr
    rw [rootOf_eq_some] at he
    exact (mem_index_unique S hnd a ha r he.1).1
  · intro r hr b hb hbe hpre
    rw [hR, List.mem_filterMap] at hr
    obtain ⟨a, ha, he⟩ := hr
    rw [rootOf_eq_some] at he
    rw [(mem_index_unique S hnd a ha r he.1).2.2] at hpre
    have hfree := findParent_none S _ a.code _ he.2
    have := falsy_prefixes_free S hnd a.code 0 (fun len2 h1 h2 => hfree len2 (by omega) h2)
      b hb hpre
    have : b.code = [] := List.length_eq_zero.1 (by omega)
    exact hbe this
  · intro c hc
    have ha : S[c] ∈ S := List.getElem_mem hc
    have hget := get_code_of_mem S hnd c S[c] (List.getElem?_eq_getElem hc)
    rcases hcov S[c] ha with h | h
    · right
      obtain ⟨⟨p, c2⟩, hpc⟩ := Option.isSome_iff_exists.1 h
      have h2 := (edgeOf_eq_some _ _ _ _ _).1 hpc
      rw [hget] at h2
      simp only [JsValue.node.injEq] at h2
      refine ⟨p, ?_⟩
      rw [hE, List.mem_filterMap]
      exact ⟨S[c], ha, by rw [hpc, h2.1]⟩
    · left
      obtain ⟨c2, hc2⟩ := Option.isSome_iff_exists.1 h
      have h2 := (rootOf_eq_some _ _ _ _).1 hc2
      rw [hget] at h2
      simp only [JsValue.node.injEq] at h2
      rw [hR, List.mem_filterMap]
      exact ⟨S[c], ha, by rw [hc2, h2.1]⟩
  · rw [hR]
    refine List.Pairwise.sublist (filterMap_sublist_of_imp _ _ ?_ S) hsorted
    intro a x h
    rw [selfOf_eq_some]
    exact ((rootOf_eq_some _ _ _ _).1 h).1
  · rw [hE, List.map_filterMap]
    refine List.Pairwise.sublist (filterMap_sublist_of_imp _ _ ?_ S) hsorted
    intro a x h
    rw [selfOf_eq_some]
    cases he : edgeOf S (fillNodeMap S) a with
    | none => rw [he] at h; simp at h
    | some pc =>
      obtain ⟨p, c⟩ := pc
      rw [he] at h
      simp only [Option.map_some', Option.some.injEq] at h
      subst h
      exact ((edgeOf_eq_some _ _ _ _ _).1 he).1

theorem sorted_perm (cmp : JsString → JsString → Int) (accounts : List Account) :
    (sortAccounts cmp accounts).Perm accounts :=
  List.perm_insertionSort _ accounts

theorem sorted_nodup (cmp : JsString → JsString → Int) (accounts : List Account)
    (hnd : (accounts.map Account.code).Nodup) :
    ((sortAccounts cmp accounts).map Account.code).Nodup :=
  ((sorted_perm cmp accounts).map Account.code).nodup_iff.2 hnd

theorem build_run (cmp : JsString → JsString → Int) (accounts : List Account)
    (forest : List AccountNode) (h : buildAccountTree cmp accounts = .ok forest) :
    ∃ st, (sortAccounts cmp accounts).foldlM
        (attach (sortAccounts cmp accounts) (fillNodeMap (sortAccounts cmp accounts)))
        ⟨[], []⟩ = .ok st ∧
      forest = st.roots.map (toTree (sortAccounts cmp accounts) st.edges
        (maxCodeLength (sortAccounts cmp accounts))) := by
  unfold buildAccountTree at h
  simp only at h
  split at h
  · exact Except.noConfusion h
  · rename_i st hst
    simp only [Except.ok.injEq] at h
    exact ⟨st, hst, h.symm⟩

theorem build_facts (cmp : JsString → JsString → Int) (accounts : List Account)
    (hnd : (accounts.map Account.code).Nodup)
    (forest : List AccountNode) (h : buildAccountTree cmp accounts = .ok forest) :
    ∃ E R, TreeFacts (sortAccounts cmp accounts) E R ∧
      forest = R.map (toTree (sortAccounts cmp accounts) E
        (maxCodeLength (sortAccounts cmp accounts))) := by
  obtain ⟨st, hst, hf⟩ := build_run cmp accounts forest h
  exact ⟨st.edges, st.roots, treeFacts_of_run _ (sorted_nodup cmp accounts hnd) st hst, hf⟩

theorem proto_none_of_safe (S : List Account) (hs : NoInheritedPrefix S) :
    (fillNodeMap S).proto = none := by
  cases hp : (fillNodeMap S).proto with
  | none => rfl
  | some i =>
    have h1 : (fillNodeMap S).slot protoKey = some i := by
      rw [NodeMap.slot, if_pos rfl, hp]
    obtain ⟨a, ha, hc⟩ := slot_fillNodeMap_some S protoKey i h1
    have hm : a ∈ S := List.getElem?_mem ha
    exact absurd (hc ▸ List.prefix_refl a.code) (hs a hm).1

theorem get_truthy_node (S : List Account) (hs : NoInheritedPrefix S) (a : Account)
    (ha : a ∈ S) (k : JsString) (hk : properPrefixOf k a.code)
    (ht : ((fillNodeMap S).get S k).truthy = true) :
    ∃ q, (fillNodeMap S).get S k = .node q := by
  unfold NodeMap.get at ht ⊢
  cases hslot : (fillNodeMap S).slot k with
  | some i => exact ⟨i, rfl⟩
  | none =>
    rw [hslot] at ht
    simp only at ht
    have hne : k ≠ protoKey := fun he => (hs a ha).1 (he ▸ hk.1)
    rw [if_neg hne, proto_none_of_safe S hs] at ht
    simp only [objectPrototypeGet] at ht
    have hnk : k ∉ objectPrototypeKeys := fun hm => (hs a ha).2 k hm hk
    rw [if_neg hnk] at ht
    exact Bool.noConfusion ht

theorem build_total (cmp : JsString → JsString → Int) (accounts : List Account)
    (hnd : (accounts.map Account.code).Nodup) (hs : NoInheritedPrefix accounts) :
    ∃ forest, buildAccountTree cmp accounts = .ok forest := by
  have hperm := sorted_perm cmp accounts
  have hS : NoInheritedPrefix (sortAccounts cmp accounts) :=
    fun a ha => hs a (hperm.mem_iff.1 ha)
  have hndS := sorted_nodup cmp accounts hnd
  obtain ⟨st, hst⟩ := foldlM_attach_total (sortAccounts cmp accounts)
    (fillNodeMap (sortAccounts cmp accounts)) (sortAccounts cmp accounts) ⟨[], []⟩
    (by
      intro a ha
      obtain ⟨i, hi, rfl⟩ := List.getElem_of_mem ha
      exact ⟨i, get_code_of_mem _ hndS i _ (List.getElem?_eq_getElem hi)⟩)
    (by
      intro a ha
      apply findParent_ok
      intro len h1 h2 ht
      refine get_truthy_node _ hS a ha _ ⟨ List.take_prefix _ _, ?_⟩ ht
      rw [List.length_take]
      omega)
  refine ⟨st.roots.map (toTree (sortAccounts cmp accounts) st.edges
    (maxCodeLength (sortAccounts cmp accounts))), ?_⟩
  unfold buildAccountTree
  simp only [hst]

/-! ## Tree builder: the order of siblings -/

theorem cmp_total {cmp : JsString → JsString → Int} (hc : ConsistentComparator cmp)
    (a b : JsString) : cmp a b ≤ 0 ∨ cmp b a ≤ 0 := by
  have h := hc.swap b a
  omega

theorem consistent_of_strict {cmp : JsString → JsString → Int} (hc : StrictComparator cmp) :
    ConsistentComparator cmp where
  swap := hc.swap
  trans := by
    intro a b c h1 h2
    by_cases e1 : cmp a b = 0
    · rw [hc.eq_of_zero a b e1]
      exact h2
    · by_cases e2 : cmp b c = 0
      · rw [← hc.eq_of_zero b c e2]
        exact h1
      · exact le_of_lt (hc.trans a b c (by omega) (by omega))

theorem sortAccounts_sorted_le {cmp : JsString → JsString → Int}
    (hc : ConsistentComparator cmp) (accounts : List Account) :
    (sortAccounts cmp accounts).Pairwise (fun a b => cmp a.code b.code ≤ 0) := by
  haveI : IsTotal Account (fun a b => cmp a.code b.code ≤ 0) :=
    ⟨fun a b => cmp_total hc a.code b.code⟩
  haveI : IsTrans Account (fun a b => cmp a.code b.code ≤ 0) :=
    ⟨fun a b c => hc.trans a.code b.code c.code⟩
  exact List.sorted_insertionSort _ accounts

theorem sortAccounts_sorted {cmp : JsString → JsString → Int} (hc : ConsistentComparator cmp)
    (accounts : List Account) (hnd : (accounts.map Account.code).Nodup)
    (hties : ∀ a ∈ accounts, ∀ b ∈ accounts, cmp a.code b.code = 0 → a.code = b.code) :
    (sortAccounts cmp accounts).Pairwise (fun a b => cmp a.code b.code < 0) := by
  have h1 := sortAccounts_sorted_le hc accounts
  have h2 : (sortAccounts cmp accounts).Pairwise (fun a b => a.code ≠ b.code) :=
    List.pairwise_map.1 (sorted_nodup cmp accounts hnd)
  refine List.Pairwise.imp_of_mem ?_ (h1.and h2)
  intro a b ha hb h
  have := hties a ((sorted_perm cmp accounts).mem_iff.1 ha) b
    ((sorted_perm cmp accounts).mem_iff.1 hb)
  have h3 := h.2
  have h4 := h.1
  by_contra hlt
  exact h3 (this (by omega))

theorem sortAccounts_perm_eq {cmp : JsString → JsString → Int} (hc : ConsistentComparator cmp)
    (accounts accounts2 : List Account) (hnd : (accounts.map Account.code).Nodup)
    (hties : ∀ a ∈ accounts, ∀ b ∈ accounts, cmp a.code b.code = 0 → a.code = b.code)
    (hp : accounts2.Perm accounts) : sortAccounts cmp accounts2 = sortAccounts cmp accounts := by
  haveI : IsAntisymm Account (fun a b => cmp a.code b.code < 0) :=
    ⟨fun a b h1 h2 => by
      have := (hc.swap a.code b.code).1 h1
      omega⟩
  have hnd2 : (accounts2.map Account.code).Nodup := (hp.map Account.code).nodup_iff.2 hnd
  have hties2 : ∀ a ∈ accounts2, ∀ b ∈ accounts2, cmp a.code b.code = 0 → a.code = b.code :=
    fun a ha b hb => hties a (hp.mem_iff.1 ha) b (hp.mem_iff.1 hb)
  exact List.eq_of_perm_of_sorted
    (((sorted_perm cmp accounts2).trans hp).trans (sorted_perm cmp accounts).symm)
    (sortAccounts_sorted hc accounts2 hnd2 hties2) (sortAccounts_sorted hc accounts hnd hties)

theorem codes_sorted_of_ids (r : JsString → JsString → Prop) (S : List Account)
    (hS : S.Pairwise (fun a b => r a.code b.code)) (ids : List Nat)
    (hlt : ∀ i ∈ ids, i < S.length) (hs : ids.Sorted (· < ·)) :
    (ids.map (codeOf S)).Pairwise r := by
  rw [List.pairwise_map]
  refine List.Pairwise.imp_of_mem ?_ hs
  intro i j hi hj hij
  have h1 := hlt i hi
  have h2 := hlt j hj
  have := (List.pairwise_iff_getElem.1 hS) i j h1 h2 hij
  simpa [codeOf, List.getD_eq_getElem?_getD, List.getElem?_eq_getElem h1,
    List.getElem?_eq_getElem h2] using this

theorem forest_codes_sorted (r : JsString → JsString → Prop) {S : List Account}
    {E : List (Nat × Nat)} {R : List Nat} (T : TreeFacts S E R)
    (hS : S.Pairwise (fun a b => r a.code b.code)) :
    ((R.map (toTree S E (maxCodeLength S))).map AccountNode.code).Pairwise r ∧
    ∀ p ∈ forestNodes (R.map (toTree S E (maxCodeLength S))),
      (p.children.map AccountNode.code).Pairwise r := by
  constructor
  · rw [List.map_map]
    have : (AccountNode.code ∘ toTree S E (maxCodeLength S)) = codeOf S := by
      funext i
      exact toTree_code _ _ _ _
    rw [this]
    exact codes_sorted_of_ids r S hS R T.root_lt T.roots_sorted
  · intro p hp
    obtain ⟨t, ht, hnt⟩ := (mem_forestNodes p _).1 hp
    obtain ⟨r0, hr, rfl⟩ := List.mem_map.1 ht
    obtain ⟨g, j, rfl, hj⟩ := subnodes_toTree S E _ r0 p hnt
    rcases toTree_children S E g j with h0 | ⟨g2, hch⟩
    · rw [h0]
      exact List.Pairwise.nil
    · rw [hch, List.map_map]
      have : (AccountNode.code ∘ toTree S E g2) = codeOf S := by
        funext i
        exact toTree_code _ _ _ _
      rw [this]
      refine codes_sorted_of_ids r S hS _ ?_ (childrenOf_sorted E j T.edges_sorted)
      intro c hc
      exact (T.edge_lt j c ((mem_childrenOf E j c).1 hc)).2

theorem codeUnitCompare_cons_lt (x y : Nat) (a b : JsString) :
    codeUnitCompare (x :: a) (y :: b) < 0 ↔ x < y ∨ (x = y ∧ codeUnitCompare a b < 0) := by
  rw [codeUnitCompare]
  split_ifs with h1 h2
  · simp [h1]
  · have : ¬ x = y := by omega
    simp [h1, this]
  · have : x = y := by omega
    simp [h1, this]

theorem codeUnitCompare_cons_pos (x y : Nat) (a b : JsString) :
    0 < codeUnitCompare (x :: a) (y :: b) ↔ y < x ∨ (x = y ∧ 0 < codeUnitCompare a b) := by
  rw [codeUnitCompare]
  split_ifs with h1 h2
  · have : ¬ y < x := by omega
    have : ¬ x = y := by omega
    simp [*]
  · simp [h2]
  · have : x = y := by omega
    simp [h2, this]

theorem codeUnitCompare_cons_zero (x y : Nat) (a b : JsString) :
    codeUnitCompare (x :: a) (y :: b) = 0 ↔ x = y ∧ codeUnitCompare a b = 0 := by
  rw [codeUnitCompare]
  split_ifs with h1 h2
  · have : ¬ x = y := by omega
    simp [this]
  · have : ¬ x = y := by omega
    simp [this]
  · have : x = y := by omega
    simp [this]

theorem codeUnitCompare_strict : StrictComparator codeUnitCompare where
  eq_of_zero := by
    intro a
    induction a with
    | nil =>
      intro b h
      cases b with
      | nil => rfl
      | cons y b => simp [codeUnitCompare] at h
    | cons x a ih =>
      intro b h
      cases b with
      | nil => simp [codeUnitCompare] at h
      | cons y b =>
        rw [codeUnitCompare_cons_zero] at h
        rw [h.1, ih b h.2]
  swap := by
    intro a
    induction a with
    | nil =>
      intro b
      cases b <;> simp [codeUnitCompare]
    | cons x a ih =>
      intro b
      cases b with
      | nil => simp [codeUnitCompare]
      | cons y b =>
        rw [codeUnitCompare_cons_lt, codeUnitCompare_cons_pos, ih b]
        constructor
        · rintro (h | ⟨h1, h2⟩)
          · exact Or.inl h
          · exact Or.inr ⟨h1.symm, h2⟩
        · rintro (h | ⟨h1, h2⟩)
          · exact Or.inl h
          · exact Or.inr ⟨h1.symm, h2⟩
  trans := by
    intro a
    induction a with
    | nil =>
      intro b c h1 h2
      cases c with
      | nil =>
        cases b with
        | nil => exact h1
        | cons y b => simp [codeUnitCompare] at h2
      | cons z c => simp [codeUnitCompare]
    | cons x a ih =>
      intro b c h1 h2
      cases b with
      | nil => simp [codeUnitCompare] at h1
      | cons y b =>
        cases c with
        | nil => simp [codeUnitCompare] at h2
        | cons z c =>
          rw [codeUnitCompare_cons_lt] at h1 h2 ⊢
          rcases h1 with h1 | ⟨e1, h1⟩ <;> rcases h2 with h2 | ⟨e2, h2⟩
          · exact Or.inl (by omega)
          · exact Or.inl (by omega)
          · exact Or.inl (by omega)
          · exact Or.inr ⟨by omega, ih b c h1 h2⟩

theorem codeUnitCompare_lt_iff_lex (a b : JsString) :
    codeUnitCompare a b < 0 ↔ List.Lex (· < ·) a b := by
  induction a generalizing b with
  | nil =>
    cases b with
    | nil => simp [codeUnitCompare]
    | cons y b =>
      simp only [codeUnitCompare, Int.reduceNeg, Int.neg_neg_iff_pos, zero_lt_one, true_iff]
      exact List.Lex.nil
  | cons x a ih =>
    cases b with
    | nil => simp [codeUnitCompare]
    | cons y b =>
      rw [codeUnitCompare_cons_lt, ih b]
      constructor
      · rintro (h | ⟨rfl, h⟩)
        · exact List.Lex.rel h
        · exact List.Lex.cons h
      · intro h
        cases h with
        | rel h => exact Or.inl h
        | cons h => exact Or.inr ⟨rfl, h⟩

/-! ## Tree builder: the claims -/

theorem mem_accounts_iff (cmp : JsString → JsString → Int) (accounts : List Account)
    (a : Account) : a ∈ sortAccounts cmp accounts ↔ a ∈ accounts :=
  (sorted_perm cmp accounts).mem_iff

theorem node_of_forest {S : List Account} {E : List (Nat × Nat)} {R : List Nat}
    (T : TreeFacts S E R) (f : Nat) (n : AccountNode)
    (hn : n ∈ forestNodes (R.map (toTree S E f))) :
    ∃ r g j, r ∈ R ∧ n = toTree S E g j ∧ j ∈ treeIds E f r ∧ j < S.length := by
  obtain ⟨t, ht, hnt⟩ := (mem_forestNodes n _).1 hn
  obtain ⟨r, hr, rfl⟩ := List.mem_map.1 ht
  obtain ⟨g, j, hg, hj⟩ := subnodes_toTree S E f r n hnt
  exact ⟨r, g, j, hr, hg, hj, treeIds_lt T f r j (T.root_lt r hr) hj⟩

theorem conservation (cmp : JsString → JsString → Int) (accounts : List Account)
    (hnd : (accounts.map Account.code).Nodup) (forest : List AccountNode)
    (h : buildAccountTree cmp accounts = .ok forest) :
    ((forestNodes forest).map AccountNode.toAccount).Perm accounts := by
  obtain ⟨E, R, T, rfl⟩ := build_facts cmp accounts hnd forest h
  exact (forest_accounts_perm T).trans (sorted_perm cmp accounts)

/-- C1: the code breaks the claim.  On the single record with code "toString1"
`buildAccountTree` raises a `TypeError` (the probe `nodeMap["toString"]` finds
the function inherited from `Object.prototype`, which has no `children`), so no
forest is returned and the record is lost.  Whenever a forest is returned for
records with pairwise distinct codes, its nodes carry exactly the input
records, each once; and a forest is returned whenever no inherited property
name is a proper prefix of a code and no code starts with `__proto__`. -/
theorem buildAccountTree_raises_on_inherited_key :
    (∀ cmp : JsString → JsString → Int,
      buildAccountTree cmp [⟨js "toString1", js "a"⟩] = .error .typeError) ∧
    (∀ (cmp : JsString → JsString → Int) (accounts : List Account) (forest : List AccountNode),
      (accounts.map Account.code).Nodup → buildAccountTree cmp accounts = .ok forest →
      ((forestNodes forest).map AccountNode.toAccount).Perm accounts) ∧
    (∀ (cmp : JsString → JsString → Int) (accounts : List Account),
      (accounts.map Account.code).Nodup → NoInheritedPrefix accounts →
      ∃ forest, buildAccountTree cmp accounts = .ok forest) :=
  ⟨fun _ => rfl, fun cmp accounts forest hnd h => conservation cmp accounts hnd forest h,
    build_total⟩

/-- C2: for records with pairwise distinct codes and every node of the forest
`buildAccountTree` returns: the code of a parent is a non-empty proper prefix
of the code of its child, and no record has a code that is a longer proper
prefix of the code of the child; a node is a root exactly when no record has a
code that is a non-empty proper prefix of its code.  (A forest is returned
whenever no inherited property name is a proper prefix of a code and no code
starts with `__proto__`.)  The codes 1, 10, 105 give the chain
1 -> 10 -> 105, the codes 1, 105 put 105 under 1, whatever the comparator. -/
theorem buildAccountTree_parent_longest_record (cmp : JsString → JsString → Int)
    (accounts : List Account) (hnd : (accounts.map Account.code).Nodup) :
    (∀ forest, buildAccountTree cmp accounts = .ok forest →
      (∀ p ∈ forestNodes forest, ∀ n ∈ p.children,
        p.code ≠ [] ∧ properPrefixOf p.code n.code ∧
          ∀ a ∈ accounts, properPrefixOf a.code n.code → a.code.length ≤ p.code.length) ∧
      (∀ n ∈ forestNodes forest,
        (n ∈ forest ↔ ¬ ∃ a ∈ accounts, a.code ≠ [] ∧ properPrefixOf a.code n.code))) ∧
    (NoInheritedPrefix accounts → ∃ forest, buildAccountTree cmp accounts = .ok forest) ∧
    (∀ (cmp2 : JsString → JsString → Int) (l1 l2 l3 : JsString),
      buildAccountTree cmp2 [⟨js "1", l1⟩, ⟨js "10", l2⟩, ⟨js "105", l3⟩] =
        .ok [.mk (js "1") l1 [.mk (js "10") l2 [.mk (js "105") l3 []]]]) ∧
    (∀ (cmp2 : JsString → JsString → Int) (l1 l3 : JsString),
      buildAccountTree cmp2 [⟨js "1", l1⟩, ⟨js "105", l3⟩] =
        .ok [.mk (js "1") l1 [.mk (js "105") l3 []]]) := by
  refine ⟨?_, build_total cmp accounts hnd, ?_, ?_⟩
  · intro forest h
    obtain ⟨E, R, T, rfl⟩ := build_facts cmp accounts hnd forest h
    constructor
    · intro p hp n hn
      obtain ⟨r, g, j, hr, rfl, hj, hjl⟩ := node_of_forest T _ p hp
      rcases toTree_children (sortAccounts cmp accounts) E g j with h0 | ⟨g2, hch⟩
      · rw [h0] at hn
        exact absurd hn (List.not_mem_nil _)
      · rw [hch] at hn
        obtain ⟨c, hc, rfl⟩ := List.mem_map.1 hn
        rw [mem_childrenOf] at hc
        rw [toTree_code, toTree_code]
        refine ⟨T.edge_nonempty j c hc, T.edge_proper j c hc, ?_⟩
        intro a ha hpre
        exact T.edge_longest j c hc a ((mem_accounts_iff cmp accounts a).2 ha) hpre
    · intro n hn
      constructor
      · intro hroot
        obtain ⟨r, hr, rfl⟩ := List.mem_map.1 hroot
        rintro ⟨a, ha, hne, hpre⟩
        rw [toTree_code] at hpre
        exact T.root_free r hr a ((mem_accounts_iff cmp accounts a).2 ha) hne hpre
      · intro hfree
        obtain ⟨t, ht, hnt⟩ := (mem_forestNodes n _).1 hn
        obtain ⟨r, hr, rfl⟩ := List.mem_map.1 ht
        rw [subnodes_eq, List.mem_cons] at hnt
        rcases hnt with hnt | hnt
        · rw [hnt]
          exact ht
        · exfalso
          rcases toTree_children (sortAccounts cmp accounts) E
              (maxCodeLength (sortAccounts cmp accounts)) r with h0 | ⟨g2, hch⟩
          · rw [h0] at hnt
            simp [forestNodes] at hnt
          · rw [hch] at hnt
            obtain ⟨t2, ht2, hn2⟩ := (mem_forestNodes n _).1 hnt
            obtain ⟨c, hc, rfl⟩ := List.mem_map.1 ht2
            rw [mem_childrenOf] at hc
            obtain ⟨g, j, rfl, hj⟩ := subnodes_toTree _ E g2 c n hn2
            obtain ⟨a, _, ha, hac, _⟩ := codeOf_eq _ r (T.root_lt r hr)
            apply hfree
            refine ⟨a, (mem_accounts_iff cmp accounts a).1 ha, ?_, ?_⟩
            · rw [← hac]
              exact T.edge_nonempty r c hc
            · rw [toTree_code, ← hac]
              rcases treeIds_below T g2 c j hj with rfl | ⟨_, h2⟩
              · exact T.edge_proper r _ hc
              · exact properPrefixOf_trans (T.edge_proper r c hc) h2
  · intro cmp2 l1 l2 l3
    unfold buildAccountTree
    by_cases h1 : cmp2 (js "10") (js "105") ≤ 0 <;>
      by_cases h2 : cmp2 (js "1") (js "10") ≤ 0 <;>
      by_cases h3 : cmp2 (js "1") (js "105") ≤ 0 <;>
      simp only [sortAccounts, List.insertionSort, List.orderedInsert, h1, h2, h3, if_true,
        if_false] <;> rfl
  · intro cmp2 l1 l3
    unfold buildAccountTree
    by_cases h3 : cmp2 (js "1") (js "105") ≤ 0 <;>
      simp only [sortAccounts, List.insertionSort, List.orderedInsert, h3, if_true,
        if_false] <;> rfl

/-- The codes 105 and 1 are distinct; in the forest built from them the root is the one node without a record code as proper prefix. -/
theorem buildAccountTree_parent_longest_record_witness :
    ([(⟨js "105", js "c"⟩ : Account), ⟨js "1", js "a"⟩].map Account.code).Nodup ∧
    ∀ n ∈ forestNodes [AccountNode.mk (js "1") (js "a") [.mk (js "105") (js "c") []]],
      (n ∈ [AccountNode.mk (js "1") (js "a") [.mk (js "105") (js "c") []]] ↔
        ¬ ∃ a ∈ [(⟨js "105", js "c"⟩ : Account), ⟨js "1", js "a"⟩],
          a.code ≠ [] ∧ properPrefixOf a.code n.code) :=
  ⟨by decide,
    ((buildAccountTree_parent_longest_record codeUnitCompare
      [⟨js "105", js "c"⟩, ⟨js "1", js "a"⟩] (by decide)).1
      [.mk (js "1") (js "a") [.mk (js "105") (js "c") []]] (by rfl)).2⟩

/-- C3 as stated fails: a comparator that is zero on two distinct codes, as
`localeCompare` is on the canonically equivalent codes U+00E9 and
U+0065 U+0301, leaves them in input order (the sort is stable).  The two orders
of the same two records give different forests, and neither sequence of roots
is strictly ascending. -/
theorem buildAccountTree_ties_keep_input_order :
    js "\u00e9" ≠ js "e\u0301" ∧
    ConsistentComparator nfdCompare ∧
    nfdCompare (js "\u00e9") (js "e\u0301") = 0 ∧
    buildAccountTree nfdCompare [⟨js "\u00e9", js "A"⟩, ⟨js "e\u0301", js "B"⟩] =
      .ok [.mk (js "\u00e9") (js "A") [], .mk (js "e\u0301") (js "B") []] ∧
    buildAccountTree nfdCompare [⟨js "e\u0301", js "B"⟩, ⟨js "\u00e9", js "A"⟩] =
      .ok [.mk (js "e\u0301") (js "B") [], .mk (js "\u00e9") (js "A") []] ∧
    buildAccountTree nfdCompare [⟨js "\u00e9", js "A"⟩, ⟨js "e\u0301", js "B"⟩] ≠
      buildAccountTree nfdCompare [⟨js "e\u0301", js "B"⟩, ⟨js "\u00e9", js "A"⟩] := by
  refine ⟨by decide, ?_, by rfl, by rfl, by rfl, ?_⟩
  · exact ⟨fun a b => codeUnitCompare_strict.swap _ _,
      fun a b c => (consistent_of_strict codeUnitCompare_strict).trans _ _ _⟩
  · intro h
    have h1 : buildAccountTree nfdCompare [⟨js "\u00e9", js "A"⟩, ⟨js "e\u0301", js "B"⟩] =
        .ok [.mk (js "\u00e9") (js "A") [], .mk (js "e\u0301") (js "B") []] := by rfl
    have h2 : buildAccountTree nfdCompare [⟨js "e\u0301", js "B"⟩, ⟨js "\u00e9", js "A"⟩] =
        .ok [.mk (js "e\u0301") (js "B") [], .mk (js "\u00e9") (js "A") []] := by rfl
    rw [h1, h2] at h
    have h3 := congrArg (fun r => match r with
      | Except.ok (n :: _) => n.label
      | _ => []) h
    exact absurd h3 (by decide)

/-- C3 amended: for records with pairwise distinct codes and a consistent
comparator, the roots of the forest `buildAccountTree` returns and the children
of each of its nodes are in ascending order of code (comparator not positive).
When the comparator is zero on no two distinct codes of the list, they are in
strictly ascending order and every permutation of the input gives the same
result.  (A forest is returned whenever no inherited property name is a proper
prefix of a code and no code starts with `__proto__`.)  The code-unit
comparator is consistent, zero on equal strings only, and the lexicographic
order; under it the input [("12","B"),("11","A")] gives the roots 11, 12. -/
theorem buildAccountTree_siblings_ascending (cmp : JsString → JsString → Int)
    (hcmp : ConsistentComparator cmp) (accounts : List Account)
    (hnd : (accounts.map Account.code).Nodup) :
    (∀ forest, buildAccountTree cmp accounts = .ok forest →
      (forest.map AccountNode.code).Pairwise (fun a b => cmp a b ≤ 0) ∧
      ∀ p ∈ forestNodes forest,
        (p.children.map AccountNode.code).Pairwise (fun a b => cmp a b ≤ 0)) ∧
    ((∀ a ∈ accounts, ∀ b ∈ accounts, cmp a.code b.code = 0 → a.code = b.code) →
      (∀ forest, buildAccountTree cmp accounts = .ok forest →
        (forest.map AccountNode.code).Pairwise (fun a b => cmp a b < 0) ∧
        ∀ p ∈ forestNodes forest,
          (p.children.map AccountNode.code).Pairwise (fun a b => cmp a b < 0)) ∧
      (∀ accounts2 : List Account, accounts2.Perm accounts →
        buildAccountTree cmp accounts2 = buildAccountTree cmp accounts)) ∧
    (NoInheritedPrefix accounts → ∃ forest, buildAccountTree cmp accounts = .ok forest) ∧
    (ConsistentComparator codeUnitCompare ∧
      (∀ a b : JsString, codeUnitCompare a b = 0 → a = b) ∧
      ∀ a b : JsString, codeUnitCompare a b < 0 ↔ List.Lex (· < ·) a b) ∧
    (∀ lA lB : JsString,
      buildAccountTree codeUnitCompare [⟨js "12", lB⟩, ⟨js "11", lA⟩] =
        .ok [.mk (js "11") lA [], .mk (js "12") lB []]) := by
  refine ⟨?_, ?_, build_total cmp accounts hnd,
    ⟨consistent_of_strict codeUnitCompare_strict, codeUnitCompare_strict.eq_of_zero,
      codeUnitCompare_lt_iff_lex⟩, fun _ _ => rfl⟩
  · intro forest h
    obtain ⟨E, R, T, rfl⟩ := build_facts cmp accounts hnd forest h
    exact forest_codes_sorted _ T (sortAccounts_sorted_le hcmp accounts)
  · intro hties
    constructor
    · intro forest h
      obtain ⟨E, R, T, rfl⟩ := build_facts cmp accounts hnd forest h
      exact forest_codes_sorted _ T (sortAccounts_sorted hcmp accounts hnd hties)
    · intro accounts2 hp
      unfold buildAccountTree
      rw [sortAccounts_perm_eq hcmp accounts accounts2 hnd hties hp]

/-- The code-unit comparator is consistent and the codes 12 and 11 are distinct
and not tied; the roots built from them are strictly ascending. -/
theorem buildAccountTree_siblings_ascending_witness :
    ConsistentComparator codeUnitCompare ∧
    ([(⟨js "12", js "B"⟩ : Account), ⟨js "11", js "A"⟩].map Account.code).Nodup ∧
    ([AccountNode.mk (js "11") (js "A") [], .mk (js "12") (js "B") []].map
      AccountNode.code).Pairwise (fun a b => codeUnitCompare a b < 0) :=
  ⟨consistent_of_strict codeUnitCompare_strict, by decide,
    (((buildAccountTree_siblings_ascending codeUnitCompare
      (consistent_of_strict codeUnitCompare_strict)
      [⟨js "12", js "B"⟩, ⟨js "11", js "A"⟩] (by decide)).2.1
      (fun a _ b _ h => codeUnitCompare_strict.eq_of_zero _ _ h)).1
      [.mk (js "11") (js "A") [], .mk (js "12") (js "B") []] (by rfl)).1⟩

end PlanOhada
